import Mathlib

/-!
Verification of the excel_to_python repository core: a shallow embedding of
`src/evaluator.py`, `src/ast_builder.py` and `src/graph.py`, together with
theorems about the formula parser, the AST evaluator, the built-in function
registry and the dependency-graph algorithms (cycle detection by DFS and
Kahn topological sorting).

Modelling conventions:
* Python dicts become association lists (`List (String × β)`) preserving
  insertion order; lookup scans for the first matching key, update rewrites
  the first matching entry in place, insertion appends at the end — the
  observable behaviour of a Python dict with unique keys.
* Python numbers (the repo stores them as 64-bit floats via `float(token)`)
  are modelled as rationals.  Every literal and arithmetic result reached in
  this development is integer-valued, where float arithmetic is exact, so
  the rational model agrees with the float semantics on all inputs used.
* Exceptions become `Except` values: `SyntaxError` from the parser,
  `KeyError` / `ValueError` from the graph code, `TypeError` /
  `ZeroDivisionError` / `ValueError` from evaluation.
* Recursion in the Python source that the language terminates dynamically
  (the DFS, the Kahn while-loop, the recursive-descent view of the grammar)
  is given an explicit fuel parameter; the fuel chosen in the top-level
  entry points is proven (or shown on every theorem's hypotheses) to be
  large enough, so fuel exhaustion never shadows real behaviour.
-/

namespace ExcelToPython

/-! ### Python dict primitives (ordered association lists) -/

/-- `d.get(key)` / `d[key]`-style lookup: first entry with the given key. -/
def alGet {β : Type} : List (String × β) → String → Option β
  | [], _ => none
  | (k, v) :: rest, key => if k = key then some v else alGet rest key

/-- `d[key] = val`: overwrite the first entry in place, else append at the
end, matching Python dict insertion-order semantics. -/
def alSet {β : Type} : List (String × β) → String → β → List (String × β)
  | [], key, val => [(key, val)]
  | (k, v) :: rest, key, val =>
      if k = key then (k, val) :: rest else (k, v) :: alSet rest key val

/-- The key list of a dict, in insertion order. -/
def alKeys {β : Type} (m : List (String × β)) : List String := m.map Prod.fst

/-! ### `src/evaluator.py`: values, AST nodes, evaluation, the registry -/

/-- Python scalar values flowing through evaluation: numbers (floats,
modelled as rationals — see the header), strings, booleans, `None`
(the blank-cell sentinel returned by `context.get`), and `list`/`tuple`
sequences (accepted by `_ensure_sequence`). -/
inductive Value where
  | num (q : Rat)
  | str (s : String)
  | bool (b : Bool)
  | none
  | list (vs : List Value)

/-- Evaluation failures, mirroring the Python exception classes raised in
`evaluator.py`: `TypeError` from mixed-type arithmetic or a wrong-arity
call, `ZeroDivisionError`, `KeyError` from `excel_funcs[name]` on an
unregistered name, `ValueError` from `min`/`max` on an empty sequence
(the `EmptyAggregate` condition of the spec), and `ValueError` from
`BinaryOpNode.eval` on an operator outside `+,-,*,/`. -/
inductive EvalErr where
  | typeErr
  | divByZero
  | unknownFunction
  | emptyAggregate
  | unsupportedOp
  deriving DecidableEq

/-- The AST node model of `evaluator.py`: `ConstantNode`, `CellNode`,
`FunctionNode`, `BinaryOpNode` (all subclasses of `FormulaNode`). -/
inductive FormulaNode where
  | ConstantNode (value : Value)
  | CellNode (ref : String)
  | FunctionNode (name : String) (args : List FormulaNode)
  | BinaryOpNode (op : String) (left : FormulaNode) (right : FormulaNode)

/-- Python truthiness (`bool(v)`) as used by the `IF` lambda's condition:
nonzero number, non-empty string, the boolean itself, `None` is false,
a sequence is truthy when non-empty. -/
def truthy : Value → Bool
  | .num q => q != 0
  | .str s => s != ""
  | .bool b => b
  | .none => false
  | .list vs => !vs.isEmpty

/-- Numeric view of a value for arithmetic: Python coerces `bool` to
`int` (`True = 1`) inside `+,-,*,/`; other types have no numeric view. -/
def toNum : Value → Option Rat
  | .num q => some q
  | .bool b => some (if b then 1 else 0)
  | _ => none

/-- Python `l + r` as reached from `BinaryOpNode.eval` and `sum`:
numeric addition (with bool coercion), string and list concatenation;
anything else raises `TypeError`.  (Python cases no formula here can
produce, such as tuple concatenation, are not modelled.) -/
def pyAdd (l r : Value) : Except EvalErr Value :=
  match l, r with
  | .str a, .str b => .ok (.str (a ++ b))
  | .list a, .list b => .ok (.list (a ++ b))
  | _, _ =>
    match toNum l, toNum r with
    | some a, some b => .ok (.num (a + b))
    | _, _ => .error .typeErr

/-- Python `l - r`: numeric only (bool coerced), else `TypeError`. -/
def pySub (l r : Value) : Except EvalErr Value :=
  match toNum l, toNum r with
  | some a, some b => .ok (.num (a - b))
  | _, _ => .error .typeErr

/-- Python `l * r` on the numeric cases reachable from formulas; sequence
repetition is not modelled (no formula in this development produces it). -/
def pyMul (l r : Value) : Except EvalErr Value :=
  match toNum l, toNum r with
  | some a, some b => .ok (.num (a * b))
  | _, _ => .error .typeErr

/-- Python `l / r` (true division): raises `ZeroDivisionError` on a zero
divisor — Python raises rather than producing an IEEE infinity. -/
def pyDiv (l r : Value) : Except EvalErr Value :=
  match toNum l, toNum r with
  | some a, some b => if b = 0 then .error .divByZero else .ok (.num (a / b))
  | _, _ => .error .typeErr

/-- Python `l < r` as used by `min`/`max`: numbers (bool coerced) and
strings compare; mixed types raise `TypeError`. -/
def pyLt (l r : Value) : Except EvalErr Bool :=
  match l, r with
  | .str a, .str b => .ok (decide (a < b))
  | _, _ =>
    match toNum l, toNum r with
    | some a, some b => .ok (decide (a < b))
    | _, _ => .error .typeErr

/-- `_ensure_sequence(values)`: with exactly one argument that is itself a
list/tuple, return it; otherwise return the argument tuple unchanged. -/
def ensure_sequence : List Value → List Value
  | [Value.list vs] => vs
  | vs => vs

/-- Python `sum(seq)`: left fold of `+` starting from the integer 0, so an
empty sequence sums to 0 and a non-numeric element raises `TypeError`. -/
def pySum (vs : List Value) : Except EvalErr Value :=
  vs.foldlM pyAdd (Value.num 0)

/-- Python `min(seq)`-style fold after the first element. -/
def pyMinFold (acc : Value) : List Value → Except EvalErr Value
  | [] => .ok acc
  | v :: vs => do
      let lt ← pyLt v acc
      pyMinFold (if lt then v else acc) vs

/-- Python `max(seq)`-style fold after the first element. -/
def pyMaxFold (acc : Value) : List Value → Except EvalErr Value
  | [] => .ok acc
  | v :: vs => do
      let gt ← pyLt acc v
      pyMaxFold (if gt then v else acc) vs

/-- `excel_funcs['SUM']`: `sum(_ensure_sequence(values))`. -/
def excelSUM (values : List Value) : Except EvalErr Value :=
  pySum (ensure_sequence values)

/-- `excel_funcs['AVERAGE']`: `sum(s)/len(s)` when `s` is truthy
(non-empty), else the explicit `0`. -/
def excelAVERAGE (values : List Value) : Except EvalErr Value :=
  let s := ensure_sequence values
  if s.isEmpty then .ok (.num 0)
  else do
    let total ← pySum s
    pyDiv total (.num (s.length : Rat))

/-- `excel_funcs['MIN']`: `min(_ensure_sequence(values))`; Python's `min`
raises `ValueError` on an empty sequence (the `EmptyAggregate` condition). -/
def excelMIN (values : List Value) : Except EvalErr Value :=
  match ensure_sequence values with
  | [] => .error .emptyAggregate
  | v :: vs => pyMinFold v vs

/-- `excel_funcs['MAX']`: `max(_ensure_sequence(values))`; empty input
raises `ValueError`. -/
def excelMAX (values : List Value) : Except EvalErr Value :=
  match ensure_sequence values with
  | [] => .error .emptyAggregate
  | v :: vs => pyMaxFold v vs

/-- `excel_funcs['IF']`: a three-parameter lambda returning `true_value` if
the (already evaluated) condition is truthy, else `false_value`; calling it
with any other arity raises `TypeError`. -/
def excelIF : List Value → Except EvalErr Value
  | [c, t, f] => .ok (if truthy c then t else f)
  | _ => .error .typeErr

/-- The `excel_funcs` registry: fixed table from upper-case names to
variadic functions; absent names have no entry (a lookup raises
`KeyError`). -/
def excel_funcs (name : String) : Option (List Value → Except EvalErr Value) :=
  if name = "SUM" then some excelSUM
  else if name = "AVERAGE" then some excelAVERAGE
  else if name = "MIN" then some excelMIN
  else if name = "MAX" then some excelMAX
  else if name = "IF" then some excelIF
  else none

/-- The evaluation context: a dict from cell reference to value. -/
abbrev Context := List (String × Value)

mutual

/-- `FormulaNode.eval(context)` over the four node classes:
a constant returns its value; a cell reference returns `context.get(ref)`
(`None` when absent); a function call eagerly evaluates every argument
left-to-right, then looks the name up in `excel_funcs` and applies it;
a binary operator evaluates left then right and applies `+,-,*,/`,
raising `ValueError` on any other operator string. -/
def FormulaNode.eval : FormulaNode → Context → Except EvalErr Value
  | .ConstantNode v, _ => .ok v
  | .CellNode ref, ctx => .ok ((alGet ctx ref).getD .none)
  | .FunctionNode name args, ctx => do
      let vals ← evalArgs args ctx
      match excel_funcs name with
      | some f => f vals
      | none => .error .unknownFunction
  | .BinaryOpNode op l r, ctx => do
      let lv ← l.eval ctx
      let rv ← r.eval ctx
      if op = "+" then pyAdd lv rv
      else if op = "-" then pySub lv rv
      else if op = "*" then pyMul lv rv
      else if op = "/" then pyDiv lv rv
      else .error .unsupportedOp

/-- Left-to-right evaluation of an argument list (the list comprehension
`[arg.eval(context) for arg in self.args]`). -/
def evalArgs : List FormulaNode → Context → Except EvalErr (List Value)
  | [], _ => .ok []
  | a :: rest, ctx => do
      let v ← a.eval ctx
      let vs ← evalArgs rest ctx
      .ok (v :: vs)

end

/-- `evaluate_ast(ast, context)` for an `ast` that is a `FormulaNode`
delegates to `ast.eval(context)` (the function's remaining branches handle
raw strings and tuples, which `parse_formula` never returns). -/
def evaluate_ast (ast : FormulaNode) (context : Context) : Except EvalErr Value :=
  ast.eval context

/-! ### `src/ast_builder.py`: the grammar and `parse_formula`

The Lark grammar `EXCEL_GRAMMAR` reachable from `?start: expr` is

  `?expr: term | expr "+" term | expr "-" term`          (left recursion)
  `?term: factor | term "*" factor | term "/" factor`    (left recursion)
  `?factor: cell_ref | NUMBER | "(" expr ")"`
  `cell_ref: SHEET_NAME "!" CELL -> sheet_cell | CELL -> cell`

with terminals `CELL = [A-Za-z]+\d+(:[A-Za-z]+\d+)?`,
`SHEET_NAME = [A-Za-z_]\w+`, `NUMBER` (Lark `common.NUMBER`:
digits, optional decimal point, optional exponent), inline whitespace and
`//`-comments ignored.  The grammar also declares
`function_call: NAME "(" [expr ("," expr)*] ")"`, but no rule reachable
from `start` references `function_call`, so function-call syntax is not
part of the accepted language; likewise no comparison operator
(`>`, `<`, `>=`, `<=`, `=`, `<>`) occurs in any grammar rule, although the
`ToAST` transformer defines handlers for both.  The embedding below renders
the reachable grammar as a recursive-descent parser (left recursion turned
into the usual iteration, preserving left associativity), applying the
`ToAST` transformer's node constructions on the fly. -/

/-- A `\w` word character (ASCII): letter, digit or underscore. -/
def isWordChar (c : Char) : Bool := c.isAlpha || c.isDigit || c = '_'

/-- One `[A-Za-z]+\d+` block of a `CELL` terminal. -/
def takeCellBlock (s : List Char) : Option (List Char × List Char) :=
  let ls := s.takeWhile (fun c => c.isAlpha)
  let s1 := s.dropWhile (fun c => c.isAlpha)
  let ds := s1.takeWhile (fun c => c.isDigit)
  let s2 := s1.dropWhile (fun c => c.isDigit)
  if ls.isEmpty || ds.isEmpty then none else some (ls ++ ds, s2)

/-- The `CELL` terminal `[A-Za-z]+\d+(:[A-Za-z]+\d+)?`: a cell address with
an optional range tail (the tail is taken only when it matches fully,
as with the regex's optional group). -/
def takeCELL (s : List Char) : Option (String × List Char) :=
  match takeCellBlock s with
  | none => none
  | some (a, rest) =>
    match rest with
    | ':' :: rest2 =>
      match takeCellBlock rest2 with
      | some (b, rest3) => some (String.mk (a ++ ':' :: b), rest3)
      | none => some (String.mk a, rest)
    | _ => some (String.mk a, rest)

/-- The `SHEET_NAME` terminal `[A-Za-z_]\w+`: a leading letter or
underscore followed by at least one further word character (greedy). -/
def takeSheetName (s : List Char) : Option (String × List Char) :=
  match s with
  | [] => none
  | c :: rest =>
    if c.isAlpha || c = '_' then
      let ws := rest.takeWhile isWordChar
      let rest2 := rest.dropWhile isWordChar
      if ws.isEmpty then none else some (String.mk (c :: ws), rest2)
    else none

/-- Digit run to a natural number. -/
def digitsToNat (ds : List Char) : Nat :=
  ds.foldl (fun n c => n * 10 + (c.toNat - 48)) 0

/-- The value of a `NUMBER` token from its integer digits, fractional
digits and exponent, as Python `float(token)` converts it — exactly, in
the rational model.  A plain integer token is a plain cast. -/
def ratOfParts (ip fp : List Char) (e : Option Int) : Rat :=
  match fp, e with
  | [], none => (digitsToNat ip : Rat)
  | _, _ =>
      ((digitsToNat ip : Rat) + (digitsToNat fp : Rat) / ((10 : Rat) ^ fp.length))
        * (10 : Rat) ^ (e.getD 0)

/-- An exponent suffix `("e"|"E") ("+"|"-")? digits+`, consumed only when
complete (as with the regex's optional group). -/
def takeExponent (s : List Char) : Option (Int × List Char) :=
  match s with
  | c :: rest =>
    if c = 'e' || c = 'E' then
      match rest with
      | '+' :: r =>
        let ds := r.takeWhile (fun c => c.isDigit)
        if ds.isEmpty then none
        else some ((digitsToNat ds : Int), r.dropWhile (fun c => c.isDigit))
      | '-' :: r =>
        let ds := r.takeWhile (fun c => c.isDigit)
        if ds.isEmpty then none
        else some (-(digitsToNat ds : Int), r.dropWhile (fun c => c.isDigit))
      | r =>
        let ds := r.takeWhile (fun c => c.isDigit)
        if ds.isEmpty then none
        else some ((digitsToNat ds : Int), r.dropWhile (fun c => c.isDigit))
    else none
  | [] => none

/-- The `NUMBER` terminal (Lark `common.NUMBER = FLOAT | INT`): an integer
part and/or a decimal point with fractional digits, with an optional
exponent. -/
def takeNUMBER (s : List Char) : Option (Rat × List Char) :=
  let ip := s.takeWhile (fun c => c.isDigit)
  let s1 := s.dropWhile (fun c => c.isDigit)
  let fpPart : Option (List Char) × List Char :=
    match s1 with
    | '.' :: r => (some (r.takeWhile (fun c => c.isDigit)), r.dropWhile (fun c => c.isDigit))
    | _ => (none, s1)
  let fp? := fpPart.1
  let s2 := fpPart.2
  if ip.isEmpty && (fp?.getD []).isEmpty then none
  else
    match takeExponent s2 with
    | some (e, s3) => some (ratOfParts ip (fp?.getD []) (some e), s3)
    | none => some (ratOfParts ip (fp?.getD []) none, s2)

/-- Skip ignored input: `WS_INLINE` (spaces/tabs) and a `//` comment, which
runs to the end of the line (line breaks themselves are not ignored by the
grammar, so nothing follows a comment on its line). -/
def skipWS : List Char → List Char
  | ' ' :: r => skipWS r
  | '\t' :: r => skipWS r
  | '/' :: '/' :: r => r.dropWhile (fun c => c ≠ '\n')
  | s => s

/-- The `cell` alternative of `cell_ref`: a bare `CELL`, producing
`CellNode(token.value)` via `ToAST.cell`. -/
def parseCellAlone (s : List Char) : Option (FormulaNode × List Char) :=
  match takeCELL s with
  | some (c, rest) => some (.CellNode c, rest)
  | none => none

/-- The `cell_ref` rule: `SHEET_NAME "!" CELL` (producing
`CellNode("Sheet!Cell")` via `ToAST.sheet_cell`) or a bare `CELL`. -/
def parseCellRef (s : List Char) : Option (FormulaNode × List Char) :=
  match takeSheetName s with
  | some (sheet, s1) =>
    match skipWS s1 with
    | '!' :: s2 =>
      match takeCELL (skipWS s2) with
      | some (cell, s3) => some (.CellNode (sheet ++ "!" ++ cell), s3)
      | none => parseCellAlone s
    | _ => parseCellAlone s
  | none => parseCellAlone s

mutual

/-- The `?expr` rule: a `term` followed by iterated `+ term` / `- term`
(left recursion rendered as iteration, so `+`/`-` associate left). -/
def parseExpr (fuel : Nat) (s : List Char) : Option (FormulaNode × List Char) :=
  match fuel with
  | 0 => none
  | f + 1 =>
    match parseTerm f s with
    | some (t, s1) => parseExprTail f t s1
    | none => none

/-- Iterated additive tail of `?expr`, building `BinaryOpNode('+'/'-')`
via `ToAST.add` / `ToAST.sub`. -/
def parseExprTail (fuel : Nat) (acc : FormulaNode) (s : List Char) :
    Option (FormulaNode × List Char) :=
  match fuel with
  | 0 => none
  | f + 1 =>
    match skipWS s with
    | '+' :: s1 =>
      match parseTerm f s1 with
      | some (t, s2) => parseExprTail f (.BinaryOpNode "+" acc t) s2
      | none => none
    | '-' :: s1 =>
      match parseTerm f s1 with
      | some (t, s2) => parseExprTail f (.BinaryOpNode "-" acc t) s2
      | none => none
    | _ => some (acc, s)

/-- The `?term` rule: a `factor` followed by iterated `* factor` /
`/ factor`. -/
def parseTerm (fuel : Nat) (s : List Char) : Option (FormulaNode × List Char) :=
  match fuel with
  | 0 => none
  | f + 1 =>
    match parseFactor f s with
    | some (t, s1) => parseTermTail f t s1
    | none => none

/-- Iterated multiplicative tail of `?term`, building
`BinaryOpNode('*'/'/')` via `ToAST.mul` / `ToAST.div`. -/
def parseTermTail (fuel : Nat) (acc : FormulaNode) (s : List Char) :
    Option (FormulaNode × List Char) :=
  match fuel with
  | 0 => none
  | f + 1 =>
    match skipWS s with
    | '*' :: s1 =>
      match parseFactor f s1 with
      | some (t, s2) => parseTermTail f (.BinaryOpNode "*" acc t) s2
      | none => none
    | '/' :: s1 =>
      match parseFactor f s1 with
      | some (t, s2) => parseTermTail f (.BinaryOpNode "/" acc t) s2
      | none => none
    | _ => some (acc, s)

/-- The `?factor` rule, exactly its three alternatives: `cell_ref`,
`NUMBER` (producing `ConstantNode(float(token))` via `ToAST.number`), or a
parenthesised `expr`.  `function_call` is not an alternative here — nor of
any rule reachable from `start` — so `NAME "(" ... ")"` input fails. -/
def parseFactor (fuel : Nat) (s : List Char) : Option (FormulaNode × List Char) :=
  match fuel with
  | 0 => none
  | f + 1 =>
    let s0 := skipWS s
    match parseCellRef s0 with
    | some r => some r
    | none =>
      match takeNUMBER s0 with
      | some (q, s1) => some (.ConstantNode (.num q), s1)
      | none =>
        match s0 with
        | '(' :: s1 =>
          match parseExpr f s1 with
          | some (e, s2) =>
            match skipWS s2 with
            | ')' :: s3 => some (e, s3)
            | _ => none
          | none => none
        | _ => none

end

/-- `SyntaxError` raised by `parse_formula` wrapping any Lark
`UnexpectedInput` diagnostic. -/
inductive ParseErr where
  | invalid
  deriving DecidableEq

/-- `parse_formula(formula)`: strip every leading `=`, run the parser over
the remaining text (which must be consumed entirely), and return the AST
built by the `ToAST` transformer; malformed input yields the
`SyntaxError`-class failure. -/
def parse_formula (formula : String) : Except ParseErr FormulaNode :=
  let text := formula.toList.dropWhile (fun c => c = '=')
  match parseExpr (text.length + 1) text with
  | some (ast, rest) =>
    if (skipWS rest).isEmpty then .ok ast else .error .invalid
  | none => .error .invalid

/-! ### `src/graph.py`: builder, cycle detector, topological sequencer -/

/-- A dependency graph: dict from node key to its ordered dependency list
(duplicates allowed and significant). -/
abbrev Graph := List (String × List String)

/-- An in-degree map: dict from node key to its (integer) edge count. -/
abbrev Indeg := List (String × Int)

/-- The DFS `visited` dict: `0` unvisited, `1` in progress, `2` done. -/
abbrev Visited := List (String × Nat)

/-- Failures of the graph code: `KeyError` (indexing a dict with an absent
key), the `ValueError` raised by `topological_sort_kahn` on a cyclic graph
(the spec's `GraphCycle`), and the model-only fuel marker, proven
unreachable for every run the theorems below speak about. -/
inductive GraphErr where
  | keyErr
  | graphCycle
  | fuelOut
  deriving DecidableEq

/-- The `for v in graph[u]` loop of `dfs`: visit children left to right,
returning on the first cycle found; `rec` is the recursive `dfs` call. -/
def dfsChildren (rec : String → Visited → Except GraphErr (Bool × Visited)) :
    List String → Visited → Except GraphErr (Bool × Visited)
  | [], vis => .ok (false, vis)
  | v :: vs, vis =>
    match rec v vis with
    | .error e => .error e
    | .ok (true, v1) => .ok (true, v1)
    | .ok (false, v1) => dfsChildren rec vs v1

/-- One level of the nested `dfs(u)` of `has_cycle`, parameterised by the
recursive call `rec`: `visited[u]` raises `KeyError` when `u` has no entry;
value 1 (in progress) means a cycle, 2 (done) means none; otherwise mark
`u` in progress, scan `graph[u]` (present for every `u` that has a
`visited` entry, since both are keyed by the graph's rows), propagate a
found cycle immediately — leaving `u` in progress, as the early `return
True` does — else mark `u` done. -/
def dfsSucc (g : Graph) (rec : String → Visited → Except GraphErr (Bool × Visited))
    (u : String) (visited : Visited) : Except GraphErr (Bool × Visited) :=
  match alGet visited u with
  | none => .error .keyErr
  | some c =>
    if c = 1 then .ok (true, visited)
    else if c = 2 then .ok (false, visited)
    else
      let v1 := alSet visited u 1
      match dfsChildren rec ((alGet g u).getD []) v1 with
      | .error e => .error e
      | .ok (true, v2) => .ok (true, v2)
      | .ok (false, v2) => .ok (false, alSet v2 u 2)

/-- The nested `dfs` of `has_cycle`, with fuel making the (dynamically
terminating) Python recursion structural.  Fuel only decreases when the
recursion goes one call deeper, so any fuel exceeding the number of
unvisited nodes is enough (proven below). -/
def dfs (g : Graph) : Nat → String → Visited → Except GraphErr (Bool × Visited)
  | 0 => fun _ _ => .error .fuelOut
  | fuel + 1 => dfsSucc g (dfs g fuel)

/-- The generator `any(dfs(node) for node in graph if visited[node] == 0)`:
walk the graph's keys in order, consulting the current `visited` before
each call, stopping at the first `True`. -/
def hasCycleLoop (g : Graph) (fuel : Nat) :
    List String → Visited → Except GraphErr Bool
  | [], _ => .ok false
  | n :: ns, visited =>
    if alGet visited n = some 0 then
      match dfs g fuel n visited with
      | .error e => .error e
      | .ok (true, _) => .ok true
      | .ok (false, v1) => hasCycleLoop g fuel ns v1
    else hasCycleLoop g fuel ns visited

/-- `has_cycle(graph)`: three-state DFS from every node.  `visited` is
initialised to 0 for the graph's keys (and only those).  The fuel
`g.length + 1` strictly exceeds the number of unvisited nodes at every
call, so it never runs out (proven below). -/
def has_cycle (g : Graph) : Except GraphErr Bool :=
  hasCycleLoop g (g.length + 1) (g.map Prod.fst) (g.map (fun p => (p.1, 0)))

/-- The `for v in result` loop of `topological_sort_kahn`: decrement
`in_degree[v]` (KeyError if `v` has no entry — the caller-supplied map is a
plain dict) and enqueue `v` once its count reaches 0. -/
def decLoop : List String → Indeg → List String → Except GraphErr (Indeg × List String)
  | [], indeg, queue => .ok (indeg, queue)
  | v :: vs, indeg, queue =>
    match alGet indeg v with
    | none => .error .keyErr
    | some d =>
      let indeg' := alSet indeg v (d - 1)
      let queue' := if d - 1 = 0 then queue ++ [v] else queue
      decLoop vs indeg' queue'

/-- One iteration of the Kahn `while queue` loop, parameterised by the
recursive call: dequeue `u`, append it to the output, compute `result` —
every graph key whose dependency list contains `u`, by the full rescan the
source performs — then run the decrement loop. -/
def kahnStep (g : Graph)
    (rec : List String → List String → Indeg → Except GraphErr (List String × Indeg))
    (queue topo : List String) (indeg : Indeg) :
    Except GraphErr (List String × Indeg) :=
  match queue with
  | [] => .ok (topo, indeg)
  | u :: qs =>
    let result := (g.filter (fun p => decide (u ∈ p.2))).map Prod.fst
    match decLoop result indeg qs with
    | .error e => .error e
    | .ok (indeg', queue') => rec queue' (topo ++ [u]) indeg'

/-- The `while queue` loop with structural fuel (each iteration dequeues
one node; the fuel chosen by `topological_sort_kahn` bounds the total
number of dequeues, proven below). -/
def kahnLoop (g : Graph) : Nat → List String → List String → Indeg →
    Except GraphErr (List String × Indeg)
  | 0 => fun queue topo indeg =>
      match queue with
      | [] => .ok (topo, indeg)
      | _ :: _ => .error .fuelOut
  | fuel + 1 => kahnStep g (kahnLoop g fuel)

/-- `topological_sort_kahn(graph, in_degree)`: first run `has_cycle` —
a `True` raises the `ValueError` (`GraphCycle`), an exception inside
`has_cycle` propagates — then seed the queue with the zero-in-degree
entries of the caller's map and run the loop.  The model returns, besides
the output list, the final state of the in-degree dict: the source mutates
the caller's dict in place, and the returned state is exactly that
post-call dict. -/
def topological_sort_kahn (g : Graph) (in_degree : Indeg) :
    Except GraphErr (List String × Indeg) :=
  match has_cycle g with
  | .error e => .error e
  | .ok true => .error .graphCycle
  | .ok false =>
    let queue := (in_degree.filter (fun p => decide (p.2 = 0))).map Prod.fst
    kahnLoop g (g.length + in_degree.length + 1) queue [] in_degree

/-- The edge relation of a graph: `Edge g u v` holds when `v` occurs in
`u`'s dependency list (the spec's "edge `node → dep`"). -/
def Edge (g : Graph) (u v : String) : Prop :=
  ∃ deps, alGet g u = some deps ∧ v ∈ deps

/-- A directed cycle exists: some node reaches itself in one or more edge
steps. -/
def HasCycleSpec (g : Graph) : Prop :=
  ∃ z, Relation.TransGen (Edge g) z z

/-- A graph is closed when every dependency-list entry has a row of its
own (no dangling references). -/
def closedB (g : Graph) : Bool :=
  g.all (fun p => p.2.all (fun d => (alGet g d).isSome))

/-! ### `build_dependency_graph` and the reference extractor -/

/-- A raw cell value as the loader supplies it (only the keys of the
`data` dict matter to the graph builder). -/
inductive PyVal where
  | num (q : Rat)
  | str (s : String)
  | none

/-- One sheet of the catalog; the builder reads only the `data` keys and
the `formulas` entries (the `constants` and `calculated` sections are not
consulted). -/
structure SheetData where
  data : List (String × PyVal)
  formulas : List (String × String)

/-- The loader-supplied sheet catalog: dict from sheet name to content. -/
abbrev Catalog := List (String × SheetData)

/-- `defaultdict(list)` read of `graph[node]`: ensure the row exists. -/
def dictEnsureList (g : Graph) (k : String) : Graph :=
  match alGet g k with
  | some _ => g
  | Option.none => g ++ [(k, [])]

/-- `defaultdict(int)` read of `in_degree[node]`: ensure the entry. -/
def dictEnsureInt (m : Indeg) (k : String) : Indeg :=
  match alGet m k with
  | some _ => m
  | Option.none => m ++ [(k, 0)]

/-- `graph[node].append(dep)` on a `defaultdict(list)`. -/
def dictAppendDep (g : Graph) (k d : String) : Graph :=
  match alGet g k with
  | some ds => alSet g k (ds ++ [d])
  | Option.none => g ++ [(k, [d])]

/-- `in_degree[node] += 1` on a `defaultdict(int)`. -/
def dictIncr (m : Indeg) (k : String) : Indeg :=
  match alGet m k with
  | some v => alSet m k (v + 1)
  | Option.none => m ++ [(k, 1)]

/-- Scanner core of the modelled reference extractor: walk the formula
text; a word starting with a letter or underscore is a sheet-qualified
reference when followed by `!` and a cell address, a function name (not a
reference) when followed by `(`, and otherwise a bare reference exactly
when it starts with a full cell/range address. -/
def extract_scan : Nat → List Char → List String
  | 0, _ => []
  | _ + 1, [] => []
  | fuel + 1, c :: rest =>
    if c.isAlpha || c = '_' then
      let r := (c :: rest).dropWhile isWordChar
      match r with
      | '!' :: r2 =>
        match takeCELL r2 with
        | some (cell, r3) =>
          (String.mk ((c :: rest).takeWhile isWordChar) ++ "!" ++ cell) ::
            extract_scan fuel r3
        | Option.none => extract_scan fuel r2
      | '(' :: r2 => extract_scan fuel r2
      | _ =>
        match takeCELL (c :: rest) with
        | some (cell, r3) => cell :: extract_scan fuel r3
        | Option.none => extract_scan fuel r
    else extract_scan fuel rest

/-- Modelled from the spec: `extract_cell_references` is defined in the
repository's `src/parser.py`, which is not among the provided sources —
only its callers (`src/graph.py`, `test_loader_parser.py`) are.  Spec
§4.4: `extractReferences(formulaText, catalog) → set of reference keys` in
canonical form (`"Sheet!Addr"` when qualified, bare `"Addr"` otherwise,
ranges as one opaque key), distinguishing sheet-qualified references from
bare ones and never mistaking a function name for a reference; "only the
result contract is specified".  The model scans the text for reference
tokens and removes duplicates (the result is a set). -/
def extract_cell_references (formula : String) (catalog : Catalog) : List String :=
  let text := formula.toList.dropWhile (fun c => c = '=')
  (extract_scan (text.length + 1) text).eraseDups

/-- `build_dependency_graph(all_sheets)`, its three steps in source order:
(1) a graph row and a zero in-degree entry for every `data` address of
every sheet; (2) for every formula cell, extract its references, qualify
each bare one with the owning sheet, append it to the node's dependency
list and increment the node's in-degree once per occurrence — a reference
to a cell absent from every `data` map becomes a dependency-list entry
with no row of its own; (3) redundantly default remaining in-degree
entries to 0 (step 1 already created them all). -/
def build_dependency_graph (all_sheets : Catalog) : Graph × Indeg :=
  let init : Graph × Indeg :=
    all_sheets.foldl (fun gi sheet =>
      sheet.2.data.foldl (fun gi' cell =>
        let node := sheet.1 ++ "!" ++ cell.1
        (dictEnsureList gi'.1 node, dictEnsureInt gi'.2 node)) gi) ([], [])
  let step2 : Graph × Indeg :=
    all_sheets.foldl (fun gi sheet =>
      sheet.2.formulas.foldl (fun gi' af =>
        let node := sheet.1 ++ "!" ++ af.1
        let deps := extract_cell_references af.2 all_sheets
        deps.foldl (fun gi2 dep =>
          let depNode := if dep.toList.contains '!' then dep else sheet.1 ++ "!" ++ dep
          (dictAppendDep gi2.1 node depNode, dictIncr gi2.2 node)) gi') gi) init
  let finalDeg : Indeg :=
    all_sheets.foldl (fun m sheet =>
      sheet.2.data.foldl (fun m' cell =>
        dictEnsureInt m' (sheet.1 ++ "!" ++ cell.1)) m) step2.2
  (step2.1, finalDeg)

/-! ### Analysis predicates for the DFS and the sequencer -/

/-- Number of unvisited entries of a `visited` dict (the DFS recursion
depth is bounded by it). -/
def whiteCount (vis : Visited) : Nat :=
  (vis.filter (fun p => decide (p.2 = 0))).length

/-- The `visited` dict has exactly the graph's keys. -/
def KeysMatch (g : Graph) (vis : Visited) : Prop :=
  ∀ k, (alGet vis k).isSome ↔ (alGet g k).isSome

/-- Every `visited` value is one of the three colours 0, 1, 2. -/
def VisRange (vis : Visited) : Prop :=
  ∀ k c, alGet vis k = some c → c ≤ 2

/-- What a successful `dfs` (or child sweep) call guarantees about its
`visited` state: keys unchanged, the unvisited count does not grow, done
nodes stay done, colours stay in range, and a `False` result changes no
in-progress marks (every node the call grayed has been blackened, and a
call never un-grays its callers' stack). -/
def DfsOkPost (vis : Visited) (b : Bool) (vis' : Visited) : Prop :=
  alKeys vis' = alKeys vis
  ∧ whiteCount vis' ≤ whiteCount vis
  ∧ (∀ k, alGet vis k = some 2 → alGet vis' k = some 2)
  ∧ (VisRange vis → VisRange vis')
  ∧ (b = false → ∀ k, (alGet vis' k = some 1 ↔ alGet vis k = some 1))

/-- The completeness invariant of the three-colour DFS: every node
reachable from a done node is done, and no done node lies on a directed
cycle. -/
def InvB (g : Graph) (vis : Visited) : Prop :=
  (∀ u, alGet vis u = some 2 → ∀ v, Relation.ReflTransGen (Edge g) u v → alGet vis v = some 2)
  ∧ (∀ u, alGet vis u = some 2 → ¬ Relation.TransGen (Edge g) u u)

/-- The spec's ordering guarantee over an output list: whenever a node
with a graph row appears at position `i`, each of its dependencies appears
at some earlier position. -/
def OrderOK (g : Graph) (topo : List String) : Prop :=
  ∀ (i : Nat) node deps, topo[i]? = some node → alGet g node = some deps →
    ∀ d ∈ deps, ∃ j, j < i ∧ topo[j]? = some d

/-- The invariant of the Kahn loop, for a graph whose in-degree map was the
per-occurrence one: no node is emitted or queued twice; every graph node's
in-degree entry equals its multiset dependency count minus the number of
its (distinct) dependencies already emitted; every queued node has all its
dependencies emitted; the emitted prefix respects the ordering guarantee;
and every graph node whose entry has reached 0 is emitted or queued. -/
def KahnInv (g : Graph) (queue topo : List String) (indeg : Indeg) : Prop :=
  (topo ++ queue).Nodup
  ∧ (∀ v deps, alGet g v = some deps →
      alGet indeg v = some ((deps.length : Int) -
        ((topo.filter (fun x => decide (x ∈ deps))).length : Int)))
  ∧ (∀ v ∈ queue, ∀ deps, alGet g v = some deps → ∀ d ∈ deps, d ∈ topo)
  ∧ OrderOK g topo
  ∧ (∀ v deps, alGet g v = some deps → alGet indeg v = some 0 → v ∈ topo ++ queue)

/-! ### Claims about the parser and evaluator (C1, C2, C7, C8) -/

/-- Claim C1: the claim states that `parse_formula("=SUM(1,2,3)")` yields an
AST evaluating to 6 because the parser accepts `NAME(arg,...)` as an atom.
In the source, the `function_call` rule is declared but unreachable from
`start` — `?factor` lists only `cell_ref`, `NUMBER` and `"(" expr ")"` — so
the call `SUM(1,2,3)` is a syntax error: `SUM` can only lex as a
`SHEET_NAME` (no digits, so not a `CELL`), after which `(` is not the
required `!`.  This theorem evaluates the embedded parser at the claim's
input and shows it fails with the `SyntaxError`-class result, contradicting
the claim and the repository's own test
(`tests/test_ast_builder.py`, case `("=SUM(1,2,3)", {}, 6)`). -/
theorem c1_sum_formula_is_rejected :
    parse_formula "=SUM(1,2,3)" = .error .invalid := by
  rfl

/-- Claim C2: the claim states that `parse_formula("=IF(A1>0,10,20)")`
parses and selects 10 or 20 by the sign of `A1`.  In the source no
comparison operator occurs in any grammar rule and `function_call` is
unreachable from `start`, so the input is rejected: `IF` lexes as a
`SHEET_NAME` and the following `(` is not the required `!` (the `>` would
be an unknown character as well).  This theorem evaluates the embedded
parser at the claim's input and shows the `SyntaxError`-class failure,
contradicting the claim and the repository's own test
(`tests/test_ast_builder.py`, cases `("=IF(A1>0, 10, 20)", ...)`). -/
theorem c2_if_formula_is_rejected :
    parse_formula "=IF(A1>0,10,20)" = .error .invalid := by
  rfl

/-- Claim C7: `evaluate(parse("=1+2*3"), {}) = 7` and
`evaluate(parse("=(1+2)*3"), {}) = 9`; multiplication binds tighter than
addition, parentheses override, and both operator levels associate to the
left.  The first four conjuncts compute the parse trees (exhibiting the
precedence and the effect of parentheses) and evaluate them to 7 and 9;
the last two exhibit left associativity of the additive and multiplicative
levels on `=1-2-3` and `=8/4/2`. -/
theorem c7_precedence_and_associativity :
    parse_formula "=1+2*3" =
      .ok (.BinaryOpNode "+" (.ConstantNode (.num 1))
        (.BinaryOpNode "*" (.ConstantNode (.num 2)) (.ConstantNode (.num 3))))
  ∧ evaluate_ast (.BinaryOpNode "+" (.ConstantNode (.num 1))
        (.BinaryOpNode "*" (.ConstantNode (.num 2)) (.ConstantNode (.num 3)))) []
      = .ok (.num 7)
  ∧ parse_formula "=(1+2)*3" =
      .ok (.BinaryOpNode "*"
        (.BinaryOpNode "+" (.ConstantNode (.num 1)) (.ConstantNode (.num 2)))
        (.ConstantNode (.num 3)))
  ∧ evaluate_ast (.BinaryOpNode "*"
        (.BinaryOpNode "+" (.ConstantNode (.num 1)) (.ConstantNode (.num 2)))
        (.ConstantNode (.num 3))) []
      = .ok (.num 9)
  ∧ parse_formula "=1-2-3" =
      .ok (.BinaryOpNode "-"
        (.BinaryOpNode "-" (.ConstantNode (.num 1)) (.ConstantNode (.num 2)))
        (.ConstantNode (.num 3)))
  ∧ parse_formula "=8/4/2" =
      .ok (.BinaryOpNode "/"
        (.BinaryOpNode "/" (.ConstantNode (.num 8)) (.ConstantNode (.num 4)))
        (.ConstantNode (.num 2))) := by
  refine ⟨?_, ?_, ?_, ?_, ?_, ?_⟩
  · rfl
  · show Except.ok (Value.num ((1 : Rat) + 2 * 3)) = Except.ok (Value.num 7)
    norm_num
  · rfl
  · show Except.ok (Value.num (((1 : Rat) + 2) * 3)) = Except.ok (Value.num 9)
    norm_num
  · rfl
  · rfl

/-- Claim C8: with zero arguments the registry's `SUM` returns 0 and
`AVERAGE` returns 0 (explicit policy), while `MIN` and `MAX` fail with the
`EmptyAggregate`-class error (Python `ValueError` from `min`/`max` of an
empty sequence).  Stated through `FunctionNode.eval`, which performs the
registry lookup and the call exactly as the source does. -/
theorem c8_zero_argument_aggregates :
    FormulaNode.eval (.FunctionNode "SUM" []) [] = .ok (.num 0)
  ∧ FormulaNode.eval (.FunctionNode "AVERAGE" []) [] = .ok (.num 0)
  ∧ FormulaNode.eval (.FunctionNode "MIN" []) [] = .error .emptyAggregate
  ∧ FormulaNode.eval (.FunctionNode "MAX" []) [] = .error .emptyAggregate := by
  refine ⟨?_, ?_, ?_, ?_⟩ <;> rfl

/-! ### Concrete graph claims: C10 and the counterexamples of C4, C5, C6, C9 -/

/-- Claim C10: a catalog whose single formula cell `Sheet1!A1` holds
`=B1` while `B1` is absent from every sheet's `data` map.  The builder
yields the graph `{Sheet1!A1: [Sheet1!B1]}` — the dangling dependency is
recorded as a list entry with no row — and `has_cycle` on that graph
raises the `KeyError`-class failure instead of returning a boolean: its
`visited` dict is keyed only by the graph's rows, and the DFS indexes it
with `Sheet1!B1`. -/
theorem c10_dangling_reference_keyerror :
    build_dependency_graph
        [("Sheet1", { data := [("A1", PyVal.str "=B1")], formulas := [("A1", "=B1")] })]
      = ([("Sheet1!A1", ["Sheet1!B1"])], [("Sheet1!A1", 1)])
  ∧ has_cycle [("Sheet1!A1", ["Sheet1!B1"])] = .error .keyErr := by
  refine ⟨?_, ?_⟩ <;> rfl

/-- Claim C4 counterexample: the acyclic graph `{A: [], B: [A, A]}` with
its per-occurrence in-degree map `{A: 0, B: 2}` (a formula referencing `A`
twice).  The run returns `["A"]` only: when `A` is dequeued, `B`'s count
is decremented once (the rescan collects each dependant once, however many
times `A` occurs in its list), stays at 1, and `B` is never emitted — so
the output does not contain every node of the graph, contrary to the
claim. -/
theorem c4_counterexample_duplicate_edges_drop_node :
    topological_sort_kahn [("A", []), ("B", ["A", "A"])] [("A", 0), ("B", 2)]
      = .ok (["A"], [("A", 0), ("B", 1)])
  ∧ ("B", ["A", "A"]) ∈ ([("A", []), ("B", ["A", "A"])] : Graph)
  ∧ "B" ∉ ["A"] := by
  refine ⟨?_, ?_, ?_⟩
  · rfl
  · simp
  · simp

/-- Claim C5 counterexample: the cyclic graph `{A: [B, A]}` (edge `A → A`
makes a one-step cycle; `B` has no row).  `topological_sort_kahn` fails,
but with the `KeyError`-class error — `has_cycle`'s DFS reaches the
dangling `B` before the cycle — not with the `GraphCycle`-class
`ValueError` the claim promises for every cyclic graph. -/
theorem c5_counterexample_cycle_with_dangling_dep :
    topological_sort_kahn [("A", ["B", "A"])] [("A", 2)] = .error .keyErr
  ∧ Relation.TransGen (Edge [("A", ["B", "A"])]) "A" "A"
  ∧ GraphErr.keyErr ≠ GraphErr.graphCycle := by
  refine ⟨?_, ?_, ?_⟩
  · rfl
  · exact Relation.TransGen.single ⟨["B", "A"], rfl, by simp⟩
  · simp

/-- Claim C6 counterexample: on the graph `{A: [B, A]}` a directed cycle
(`A → A`) is reachable via the graph's edges, yet `has_cycle` does not
return `True` — it raises the `KeyError`-class failure on the dangling
dependency `B` — so "returns true iff a cycle is reachable" fails as
stated over the graphs the builder can produce. -/
theorem c6_counterexample_cycle_but_keyerror :
    Relation.TransGen (Edge [("A", ["B", "A"])]) "A" "A"
  ∧ has_cycle [("A", ["B", "A"])] = .error .keyErr := by
  refine ⟨?_, ?_⟩
  · exact Relation.TransGen.single ⟨["B", "A"], rfl, by simp⟩
  · rfl

/-- Claim C9 counterexample: sorting `{A: [], B: [A]}` with the in-degree
dict `{A: 0, B: 1}` succeeds and leaves the caller's dict at
`{A: 0, B: 0}` — `B`'s entry was decremented in place when `A` was
emitted.  The post-call dict differs from the supplied one, so the
sequencer does not work on its own copy. -/
theorem c9_counterexample_indegree_mutated :
    topological_sort_kahn [("A", []), ("B", ["A"])] [("A", 0), ("B", 1)]
      = .ok (["A", "B"], [("A", 0), ("B", 0)])
  ∧ ([("A", 0), ("B", 0)] : Indeg) ≠ [("A", 0), ("B", 1)] := by
  refine ⟨?_, ?_⟩
  · rfl
  · simp

/-! ### Association-list lemmas -/

theorem alGet_alSet_self {β : Type} (m : List (String × β)) (k : String) (v : β) :
    alGet (alSet m k v) k = some v := by
  induction m with
  | nil => simp [alSet, alGet]
  | cons p rest ih =>
    obtain ⟨a, b⟩ := p
    by_cases h : a = k
    · simp [alSet, h, alGet]
    · simp [alSet, h, alGet, ih]

theorem alGet_alSet_ne {β : Type} (m : List (String × β)) (k k' : String) (v : β)
    (h : k' ≠ k) : alGet (alSet m k v) k' = alGet m k' := by
  induction m with
  | nil => simp [alSet, alGet, Ne.symm h]
  | cons p rest ih =>
    obtain ⟨a, b⟩ := p
    by_cases hak : a = k
    · subst hak
      simp [alSet, alGet, Ne.symm h]
    · simp [alSet, hak, alGet, ih]

theorem alKeys_alSet {β : Type} (m : List (String × β)) (k : String) (v : β)
    (h : (alGet m k).isSome) : alKeys (alSet m k v) = alKeys m := by
  induction m with
  | nil => simp [alGet] at h
  | cons p rest ih =>
    obtain ⟨a, b⟩ := p
    by_cases hak : a = k
    · simp [alSet, hak, alKeys]
    · simp only [alGet, if_neg hak] at h
      have hrest := ih h
      simp only [alKeys] at hrest
      simp [alSet, hak, alKeys, hrest]

theorem alGet_isSome_iff_mem {β : Type} (m : List (String × β)) (k : String) :
    (alGet m k).isSome ↔ k ∈ alKeys m := by
  induction m with
  | nil => simp [alGet, alKeys]
  | cons p rest ih =>
    obtain ⟨a, b⟩ := p
    by_cases hak : a = k
    · subst hak; simp [alGet, alKeys]
    · simp [alGet, hak, alKeys, ih, Ne.symm hak]

/-! ### `whiteCount` and initial-state lemmas -/

theorem whiteCount_alSet_le (vis : Visited) (k : String) (c : Nat) (hc : c ≠ 0) :
    whiteCount (alSet vis k c) ≤ whiteCount vis := by
  induction vis with
  | nil => simp [alSet, whiteCount, hc]
  | cons p rest ih =>
    obtain ⟨a, b⟩ := p
    by_cases hak : a = k
    · by_cases hb : b = 0
      · simp [alSet, hak, whiteCount, hc, hb, List.filter]
      · simp [alSet, hak, whiteCount, hc, hb, List.filter]
    · by_cases hb : b = 0
      · simpa [alSet, hak, whiteCount, hb, List.filter] using ih
      · simpa [alSet, hak, whiteCount, hb, List.filter] using ih

theorem whiteCount_alSet_white (vis : Visited) (k : String) (c : Nat)
    (h0 : alGet vis k = some 0) (hc : c ≠ 0) :
    whiteCount (alSet vis k c) + 1 = whiteCount vis := by
  induction vis with
  | nil => simp [alGet] at h0
  | cons p rest ih =>
    obtain ⟨a, b⟩ := p
    by_cases hak : a = k
    · subst hak
      simp only [alGet, if_pos] at h0
      simp only [Option.some.injEq] at h0
      subst h0
      simp [alSet, whiteCount, hc, List.filter]
    · simp only [alGet, if_neg hak] at h0
      by_cases hb : b = 0
      · simpa [alSet, hak, whiteCount, hb, List.filter] using ih h0
      · simpa [alSet, hak, whiteCount, hb, List.filter] using ih h0

theorem alGet_map_zero (g : Graph) (k : String) :
    alGet (g.map (fun p => (p.1, (0 : Nat)))) k
      = (alGet g k).map (fun _ => (0 : Nat)) := by
  induction g with
  | nil => simp [alGet]
  | cons p rest ih =>
    obtain ⟨a, b⟩ := p
    by_cases hak : a = k
    · simp [alGet, hak]
    · simp [alGet, hak, ih]

theorem whiteCount_init (g : Graph) :
    whiteCount (g.map (fun p => (p.1, (0 : Nat)))) = g.length := by
  induction g with
  | nil => simp [whiteCount]
  | cons p rest ih => simp [whiteCount, List.filter] at ih ⊢; omega

theorem keysMatch_init (g : Graph) :
    KeysMatch g (g.map (fun p => (p.1, (0 : Nat)))) := by
  intro k
  rw [alGet_map_zero]
  cases alGet g k <;> simp

theorem visRange_init (g : Graph) :
    VisRange (g.map (fun p => (p.1, (0 : Nat)))) := by
  intro k c h
  rw [alGet_map_zero] at h
  cases hg : alGet g k <;> rw [hg] at h <;> simp at h
  omega

theorem grays_init (g : Graph) (w : String) :
    alGet (g.map (fun p => (p.1, (0 : Nat)))) w ≠ some 1 := by
  rw [alGet_map_zero]
  cases alGet g w <;> simp

theorem keysMatch_of_keysEq (g : Graph) (v1 v2 : Visited)
    (h : alKeys v2 = alKeys v1) (hm : KeysMatch g v1) : KeysMatch g v2 := by
  intro k
  rw [alGet_isSome_iff_mem, h, ← alGet_isSome_iff_mem]
  exact hm k

theorem visRange_alSet (vis : Visited) (k : String) (c : Nat)
    (h : VisRange vis) (hc : c ≤ 2) : VisRange (alSet vis k c) := by
  intro k' c' h'
  by_cases hk : k' = k
  · subst hk
    rw [alGet_alSet_self] at h'
    cases h'
    exact hc
  · rw [alGet_alSet_ne _ _ _ _ hk] at h'
    exact h _ _ h'

/-! ### Structural facts about a `dfs` run -/

theorem dfsOkPost_refl (vis : Visited) (b : Bool) : DfsOkPost vis b vis :=
  ⟨rfl, Nat.le_refl _, fun _ h => h, fun h => h, fun _ _ => Iff.rfl⟩

theorem dfsOkPost_trans (v1 v2 v3 : Visited) (b : Bool)
    (h12 : DfsOkPost v1 false v2) (h23 : DfsOkPost v2 b v3) : DfsOkPost v1 b v3 := by
  obtain ⟨k12, w12, bl12, r12, g12⟩ := h12
  obtain ⟨k23, w23, bl23, r23, g23⟩ := h23
  exact ⟨k23.trans k12, Nat.le_trans w23 w12, fun k h => bl23 _ (bl12 _ h),
    fun h => r23 (r12 h), fun hb k => (g23 hb k).trans (g12 rfl k)⟩

theorem dfsChildren_structure
    (rec : String → Visited → Except GraphErr (Bool × Visited))
    (Hrec : ∀ v vis b vis', rec v vis = .ok (b, vis') →
      DfsOkPost vis b vis' ∧ (b = false → alGet vis' v = some 2)) :
    ∀ (vs : List String) (vis : Visited) (b : Bool) (vis' : Visited),
      dfsChildren rec vs vis = .ok (b, vis') →
      DfsOkPost vis b vis' ∧ (b = false → ∀ v ∈ vs, alGet vis' v = some 2) := by
  intro vs
  induction vs with
  | nil =>
    intro vis b vis' h
    simp only [dfsChildren, Except.ok.injEq, Prod.mk.injEq] at h
    obtain ⟨hb, hvis⟩ := h
    subst hb; subst hvis
    exact ⟨dfsOkPost_refl _ _, fun _ v hv => absurd hv (List.not_mem_nil v)⟩
  | cons v rest ih =>
    intro vis b vis' h
    simp only [dfsChildren] at h
    split at h
    · exact absurd h (by simp)
    · rename_i v1 heq
      simp only [Except.ok.injEq, Prod.mk.injEq] at h
      obtain ⟨hb, hvis⟩ := h
      subst hb; subst hvis
      exact ⟨(Hrec _ _ _ _ heq).1, fun hfalse => absurd hfalse (by simp)⟩
    · rename_i v1 heq
      have h1 := Hrec _ _ _ _ heq
      have h2 := ih _ _ _ h
      refine ⟨dfsOkPost_trans _ _ _ _ h1.1 h2.1, ?_⟩
      intro hb w hw
      rcases List.mem_cons.mp hw with rfl | hw'
      · exact h2.1.2.2.1 _ (h1.2 rfl)
      · exact h2.2 hb w hw'

theorem dfs_structure (g : Graph) :
    ∀ (fuel : Nat) (u : String) (vis : Visited) (b : Bool) (vis' : Visited),
      dfs g fuel u vis = .ok (b, vis') →
      DfsOkPost vis b vis' ∧ (b = false → alGet vis' u = some 2) := by
  intro fuel
  induction fuel with
  | zero => intro u vis b vis' h; simp [dfs] at h
  | succ f ih =>
    intro u vis b vis' h
    simp only [dfs, dfsSucc] at h
    split at h
    · exact absurd h (by simp)
    · rename_i c hv
      split at h
      · rename_i hc1
        simp only [Except.ok.injEq, Prod.mk.injEq] at h
        obtain ⟨hb, hvis⟩ := h
        subst hb; subst hvis
        exact ⟨dfsOkPost_refl _ _, fun hfalse => absurd hfalse (by simp)⟩
      · rename_i hc1
        split at h
        · rename_i hc2
          simp only [Except.ok.injEq, Prod.mk.injEq] at h
          obtain ⟨hb, hvis⟩ := h
          subst hb; subst hvis
          refine ⟨dfsOkPost_refl _ _, fun _ => ?_⟩
          rw [hv, hc2]
        · rename_i hc2
          -- the white (or out-of-range) case: mark in progress, sweep children
          have hu1 : alGet (alSet vis u 1) u = some 1 := alGet_alSet_self _ _ _
          have hkeys1 : alKeys (alSet vis u 1) = alKeys vis :=
            alKeys_alSet _ _ _ (by rw [hv]; rfl)
          have hwhite1 : whiteCount (alSet vis u 1) ≤ whiteCount vis :=
            whiteCount_alSet_le _ _ _ (by omega)
          have hblack1 : ∀ k, alGet vis k = some 2 → alGet (alSet vis u 1) k = some 2 := by
            intro k hk
            by_cases hku : k = u
            · subst hku; rw [hv] at hk; cases hk; exact absurd rfl hc2
            · rw [alGet_alSet_ne _ _ _ _ hku]; exact hk
          have hrange1 : VisRange vis → VisRange (alSet vis u 1) := fun hr =>
            visRange_alSet _ _ _ hr (by omega)
          split at h
          · exact absurd h (by simp)
          · rename_i v2 heq
            -- children found a cycle: result (true, v2)
            simp only [Except.ok.injEq, Prod.mk.injEq] at h
            obtain ⟨hb, hvis⟩ := h
            subst hb; subst hvis
            have hch := dfsChildren_structure (dfs g f) (fun a b c d hh => ih a b c d hh)
              _ _ _ _ heq
            obtain ⟨hk2, hw2, hbl2, hr2, _⟩ := hch.1
            refine ⟨⟨hk2.trans hkeys1, Nat.le_trans hw2 hwhite1,
              fun k hk => hbl2 _ (hblack1 _ hk), fun hr => hr2 (hrange1 hr),
              fun hfalse _ => absurd hfalse (by simp)⟩,
              fun hfalse => absurd hfalse (by simp)⟩
          · rename_i v2 heq
            -- all children clean: result (false, blacken u)
            simp only [Except.ok.injEq, Prod.mk.injEq] at h
            obtain ⟨hb, hvis⟩ := h
            subst hb; subst hvis
            have hch := dfsChildren_structure (dfs g f) (fun a b c d hh => ih a b c d hh)
              _ _ _ _ heq
            obtain ⟨hk2, hw2, hbl2, hr2, hg2⟩ := hch.1
            have hu2 : alGet v2 u = some 1 := (hg2 rfl u).mpr hu1
            have hkeys3 : alKeys (alSet v2 u 2) = alKeys v2 :=
              alKeys_alSet _ _ _ (by rw [hu2]; rfl)
            refine ⟨⟨(hkeys3.trans hk2).trans hkeys1,
              Nat.le_trans (whiteCount_alSet_le _ _ _ (by omega))
                (Nat.le_trans hw2 hwhite1), ?_, ?_, ?_⟩, fun _ => alGet_alSet_self _ _ _⟩
            · intro k hk
              by_cases hku : k = u
              · subst hku; rw [hv] at hk; cases hk; exact absurd rfl hc2
              · rw [alGet_alSet_ne _ _ _ _ hku]
                exact hbl2 _ (hblack1 _ hk)
            · intro hr
              exact visRange_alSet _ _ _ (hr2 (hrange1 hr)) (by omega)
            · intro _ k
              by_cases hku : k = u
              · subst hku
                rw [alGet_alSet_self, hv]
                constructor
                · intro hh; cases hh
                · intro hh; cases hh; exact absurd rfl hc1
              · rw [alGet_alSet_ne _ _ _ _ hku]
                rw [hg2 rfl k]
                rw [alGet_alSet_ne _ _ _ _ hku]

theorem alGet_mem {β : Type} (m : List (String × β)) (k : String) (v : β)
    (h : alGet m k = some v) : (k, v) ∈ m := by
  induction m with
  | nil => simp [alGet] at h
  | cons p rest ih =>
    obtain ⟨a, b⟩ := p
    by_cases hak : a = k
    · subst hak
      simp only [alGet, if_pos] at h
      simp only [Option.some.injEq] at h
      subst h
      exact List.mem_cons_self _ _
    · simp only [alGet, if_neg hak] at h
      exact List.mem_cons_of_mem _ (ih h)

/-! ### Soundness of the DFS: a `True` result exhibits a cycle -/

theorem dfsChildren_sound (g : Graph)
    (rec : String → Visited → Except GraphErr (Bool × Visited))
    (HrecS : ∀ v vis, (∀ w, alGet vis w = some 1 → Relation.TransGen (Edge g) w v) →
      ∀ vis', rec v vis = .ok (true, vis') → HasCycleSpec g)
    (HrecG : ∀ v vis vis', rec v vis = .ok (false, vis') →
      ∀ k, alGet vis' k = some 1 ↔ alGet vis k = some 1) :
    ∀ (vs : List String) (vis : Visited),
      (∀ v ∈ vs, ∀ w, alGet vis w = some 1 → Relation.TransGen (Edge g) w v) →
      ∀ vis', dfsChildren rec vs vis = .ok (true, vis') → HasCycleSpec g := by
  intro vs
  induction vs with
  | nil => intro vis _ vis' h; simp [dfsChildren] at h
  | cons v rest ih =>
    intro vis hpre vis' h
    simp only [dfsChildren] at h
    split at h
    · exact absurd h (by simp)
    · rename_i v1 heq
      exact HrecS v vis (hpre v (List.mem_cons_self _ _)) v1 heq
    · rename_i v1 heq
      refine ih _ ?_ _ h
      intro w hw z hz
      exact hpre w (List.mem_cons_of_mem _ hw) z ((HrecG v vis v1 heq z).mp hz)

theorem dfs_sound (g : Graph) :
    ∀ (fuel : Nat) (u : String) (vis : Visited),
      (∀ w, alGet vis w = some 1 → Relation.TransGen (Edge g) w u) →
      ∀ vis', dfs g fuel u vis = .ok (true, vis') → HasCycleSpec g := by
  intro fuel
  induction fuel with
  | zero => intro u vis _ vis' h; simp [dfs] at h
  | succ f ih =>
    intro u vis hpre vis' h
    simp only [dfs, dfsSucc] at h
    split at h
    · exact absurd h (by simp)
    · rename_i c hv
      split at h
      · rename_i hc1
        subst hc1
        exact ⟨u, hpre u hv⟩
      · rename_i hc1
        split at h
        · exact absurd h (by simp)
        · rename_i hc2
          split at h
          · exact absurd h (by simp)
          · rename_i v2 heq
            refine dfsChildren_sound g (dfs g f) (fun a b hp c hh => ih a b hp c hh)
              (fun a b c hh => (dfs_structure g f a b false c hh).1.2.2.2.2 rfl)
              _ _ ?_ _ heq
            intro v hv' w hw
            cases hgu : alGet g u with
            | none => rw [hgu] at hv'; simp at hv'
            | some deps =>
              rw [hgu] at hv'
              simp only [Option.getD_some] at hv'
              by_cases hwu : w = u
              · subst hwu
                exact Relation.TransGen.single ⟨deps, hgu, hv'⟩
              · rw [alGet_alSet_ne _ _ _ _ hwu] at hw
                exact Relation.TransGen.tail (hpre w hw) ⟨deps, hgu, hv'⟩
          · exact absurd h (by simp)

theorem hasCycleLoop_sound (g : Graph) (fuel : Nat) :
    ∀ (ns : List String) (vis : Visited),
      (∀ w, alGet vis w ≠ some 1) →
      hasCycleLoop g fuel ns vis = .ok true → HasCycleSpec g := by
  intro ns
  induction ns with
  | nil => intro vis _ h; simp [hasCycleLoop] at h
  | cons n rest ih =>
    intro vis hng h
    simp only [hasCycleLoop] at h
    split at h
    · split at h
      · exact absurd h (by simp)
      · rename_i v1 heq
        exact dfs_sound g fuel n vis (fun w hw => absurd hw (hng w)) v1 heq
      · rename_i v1 heq
        refine ih v1 ?_ h
        intro w hw
        exact hng w (((dfs_structure g fuel n vis false v1 heq).1.2.2.2.2 rfl w).mp hw)
    · exact ih vis hng h

/-- A `True` from `has_cycle` really means a reachable directed cycle. -/
theorem has_cycle_sound (g : Graph) (h : has_cycle g = .ok true) : HasCycleSpec g := by
  simp only [has_cycle] at h
  exact hasCycleLoop_sound g (g.length + 1) _ _ (grays_init g) h

/-! ### Completeness of the DFS: a `False` result excludes cycles -/

theorem dfsChildren_inv (g : Graph)
    (rec : String → Visited → Except GraphErr (Bool × Visited))
    (HrecI : ∀ v vis vis', InvB g vis → rec v vis = .ok (false, vis') → InvB g vis')
    (Hrec : ∀ v vis b vis', rec v vis = .ok (b, vis') →
      DfsOkPost vis b vis' ∧ (b = false → alGet vis' v = some 2)) :
    ∀ (vs : List String) (vis vis' : Visited),
      InvB g vis → dfsChildren rec vs vis = .ok (false, vis') → InvB g vis' := by
  intro vs
  induction vs with
  | nil =>
    intro vis vis' hinv h
    simp only [dfsChildren, Except.ok.injEq, Prod.mk.injEq, true_and] at h
    subst h
    exact hinv
  | cons v rest ih =>
    intro vis vis' hinv h
    simp only [dfsChildren] at h
    split at h
    · exact absurd h (by simp)
    · exact absurd h (by simp)
    · rename_i v1 heq
      exact ih _ _ (HrecI v vis v1 hinv heq) h

theorem dfs_inv (g : Graph) :
    ∀ (fuel : Nat) (u : String) (vis vis' : Visited),
      InvB g vis → dfs g fuel u vis = .ok (false, vis') → InvB g vis' := by
  intro fuel
  induction fuel with
  | zero => intro u vis vis' _ h; simp [dfs] at h
  | succ f ih =>
    intro u vis vis' hinv h
    simp only [dfs, dfsSucc] at h
    split at h
    · exact absurd h (by simp)
    · rename_i c hv
      split at h
      · exact absurd h (by simp)
      · rename_i hc1
        split at h
        · rename_i hc2
          simp only [Except.ok.injEq, Prod.mk.injEq, true_and] at h
          subst h
          exact hinv
        · rename_i hc2
          split at h
          · exact absurd h (by simp)
          · exact absurd h (by simp)
          · rename_i v2 heq
            simp only [Except.ok.injEq, Prod.mk.injEq, true_and] at h
            subst h
            have hinv1 : InvB g (alSet vis u 1) := by
              constructor
              · intro w hw v hreach
                by_cases hwu : w = u
                · subst hwu
                  rw [alGet_alSet_self] at hw
                  simp at hw
                · rw [alGet_alSet_ne _ _ _ _ hwu] at hw
                  have hb := hinv.1 w hw v hreach
                  by_cases hvu : v = u
                  · subst hvu; rw [hv] at hb; cases hb; exact absurd rfl hc2
                  · rw [alGet_alSet_ne _ _ _ _ hvu]; exact hb
              · intro w hw
                by_cases hwu : w = u
                · subst hwu; rw [alGet_alSet_self] at hw; simp at hw
                · rw [alGet_alSet_ne _ _ _ _ hwu] at hw
                  exact hinv.2 w hw
            have hinv2 : InvB g v2 := dfsChildren_inv g (dfs g f)
              (fun a b c hI hh => ih a b c hI hh)
              (fun a b c d hh => dfs_structure g f a b c d hh) _ _ _ hinv1 heq
            have hch := dfsChildren_structure (dfs g f)
              (fun a b c d hh => dfs_structure g f a b c d hh) _ _ _ _ heq
            have hgray2 : alGet v2 u = some 1 :=
              (hch.1.2.2.2.2 rfl u).mpr (alGet_alSet_self _ _ _)
            have hchblack : ∀ v ∈ (alGet g u).getD [], alGet v2 v = some 2 := hch.2 rfl
            constructor
            · intro w hw v hreach
              by_cases hwu : w = u
              · subst hwu
                rcases Relation.ReflTransGen.cases_head hreach with rfl | ⟨x, hedge, hxv⟩
                · exact alGet_alSet_self _ _ _
                · obtain ⟨deps, hgu, hxdeps⟩ := hedge
                  have hx2 : alGet v2 x = some 2 := by
                    apply hchblack; rw [hgu]; simpa using hxdeps
                  have hv2 : alGet v2 v = some 2 := hinv2.1 x hx2 v hxv
                  by_cases hvu : v = w
                  · subst hvu; exact alGet_alSet_self _ _ _
                  · rw [alGet_alSet_ne _ _ _ _ hvu]; exact hv2
              · rw [alGet_alSet_ne _ _ _ _ hwu] at hw
                have hv2 := hinv2.1 w hw v hreach
                by_cases hvu : v = u
                · subst hvu; exact alGet_alSet_self _ _ _
                · rw [alGet_alSet_ne _ _ _ _ hvu]; exact hv2
            · intro w hw hcyc
              by_cases hwu : w = u
              · subst hwu
                obtain ⟨x, hedge, hxu⟩ := Relation.TransGen.head'_iff.mp hcyc
                obtain ⟨deps, hgu, hxdeps⟩ := hedge
                have hx2 : alGet v2 x = some 2 := by
                  apply hchblack; rw [hgu]; simpa using hxdeps
                have hu2 : alGet v2 w = some 2 := hinv2.1 x hx2 w hxu
                exact absurd (hgray2.symm.trans hu2) (by simp)
              · rw [alGet_alSet_ne _ _ _ _ hwu] at hw
                exact hinv2.2 w hw hcyc

theorem hasCycleLoop_complete (g : Graph) (fuel : Nat) :
    ∀ (ns : List String) (vis : Visited),
      InvB g vis → (∀ w, alGet vis w ≠ some 1) → VisRange vis → KeysMatch g vis →
      (∀ k, (alGet g k).isSome → k ∉ ns → alGet vis k = some 2) →
      hasCycleLoop g fuel ns vis = .ok false → ¬ HasCycleSpec g := by
  intro ns
  induction ns with
  | nil =>
    intro vis hinv _ _ _ hdone _ hcyc
    obtain ⟨z, hz⟩ := hcyc
    obtain ⟨x, hedge, _⟩ := Relation.TransGen.head'_iff.mp hz
    obtain ⟨deps, hgz, _⟩ := hedge
    have hzdone : alGet vis z = some 2 := hdone z (by rw [hgz]; rfl) (List.not_mem_nil z)
    exact hinv.2 z hzdone hz
  | cons n rest ih =>
    intro vis hinv hgr hr hkm hdone h
    simp only [hasCycleLoop] at h
    split at h
    · rename_i hwhite
      split at h
      · exact absurd h (by simp)
      · exact absurd h (by simp)
      · rename_i v1 heq
        have hst := dfs_structure g fuel n vis false v1 heq
        obtain ⟨hkeys, _, hblack, hrange, hgray⟩ := hst.1
        refine ih v1 (dfs_inv g fuel n vis v1 hinv heq) ?_ (hrange hr)
          (keysMatch_of_keysEq g vis v1 hkeys hkm) ?_ h
        · intro w hw; exact hgr w ((hgray rfl w).mp hw)
        · intro k hk hkrest
          by_cases hkn : k = n
          · subst hkn; exact hst.2 rfl
          · exact hblack _ (hdone k hk (by simp [hkn, hkrest]))
    · rename_i hnwhite
      refine ih vis hinv hgr hr hkm ?_ h
      intro k hk hkrest
      by_cases hkn : k = n
      · subst hkn
        have hsome : (alGet vis k).isSome := (hkm k).mpr hk
        cases hvn : alGet vis k with
        | none => rw [hvn] at hsome; simp at hsome
        | some c =>
          have hc0 : ¬ c = 0 := by
            intro hh; subst hh; exact hnwhite hvn
          have hc1 : ¬ c = 1 := by
            intro hh; subst hh; exact hgr k hvn
          have hc2 : c ≤ 2 := hr k c hvn
          have hc : c = 2 := by omega
          rw [hc]
      · exact hdone k hk (by simp [hkn, hkrest])

/-- A `False` from `has_cycle` really means no directed cycle exists. -/
theorem has_cycle_complete (g : Graph) (h : has_cycle g = .ok false) :
    ¬ HasCycleSpec g := by
  simp only [has_cycle] at h
  refine hasCycleLoop_complete g (g.length + 1) _ _ ⟨?_, ?_⟩ (grays_init g)
    (visRange_init g) (keysMatch_init g) ?_ h
  · intro u hu
    rw [alGet_map_zero] at hu
    cases hg : alGet g u <;> rw [hg] at hu <;> simp at hu
  · intro u hu
    rw [alGet_map_zero] at hu
    cases hg : alGet g u <;> rw [hg] at hu <;> simp at hu
  · intro k hk hkn
    exact absurd ((alGet_isSome_iff_mem g k).mp hk) hkn

/-! ### Totality of `has_cycle` on closed graphs -/

theorem dfs_no_error (g : Graph)
    (hclosed : ∀ p ∈ g, ∀ d ∈ p.2, (alGet g d).isSome) :
    ∀ (fuel : Nat) (u : String) (vis : Visited),
      KeysMatch g vis → VisRange vis → (alGet g u).isSome → whiteCount vis < fuel →
      ∀ e, dfs g fuel u vis ≠ .error e := by
  intro fuel
  induction fuel with
  | zero => intro u vis _ _ _ hw; omega
  | succ f ih =>
    intro u vis hkm hr hu hw e h
    simp only [dfs, dfsSucc] at h
    split at h
    · rename_i hvu
      have husome : (alGet vis u).isSome := (hkm u).mpr hu
      rw [hvu] at husome
      simp at husome
    · rename_i c hvu
      split at h
      · exact absurd h (by simp)
      · rename_i hc1
        split at h
        · exact absurd h (by simp)
        · rename_i hc2
          -- white case: c = 0 by range
          have hc0 : c = 0 := by
            have := hr u c hvu
            omega
          subst hc0
          have hw1 : whiteCount (alSet vis u 1) < f := by
            have := whiteCount_alSet_white vis u 1 hvu (by omega)
            omega
          have hkm1 : KeysMatch g (alSet vis u 1) :=
            keysMatch_of_keysEq g vis _ (alKeys_alSet _ _ _ (by rw [hvu]; rfl)) hkm
          have hr1 : VisRange (alSet vis u 1) := visRange_alSet _ _ _ hr (by omega)
          have hdeps : ∀ v ∈ (alGet g u).getD [], (alGet g v).isSome := by
            intro v hv
            cases hgu : alGet g u with
            | none => rw [hgu] at hv; simp at hv
            | some deps =>
              rw [hgu] at hv
              simp only [Option.getD_some] at hv
              exact hclosed (u, deps) (alGet_mem g u deps hgu) v hv
          -- the child sweep cannot fail
          have hlist : ∀ (vs : List String) (vis1 : Visited),
              (∀ v ∈ vs, (alGet g v).isSome) → KeysMatch g vis1 → VisRange vis1 →
              whiteCount vis1 < f →
              ∀ e, dfsChildren (dfs g f) vs vis1 ≠ .error e := by
            intro vs
            induction vs with
            | nil => intro vis1 _ _ _ _ e hh; simp [dfsChildren] at hh
            | cons v vrest ihl =>
              intro vis1 hrows hkm1 hr1 hw1 e hh
              simp only [dfsChildren] at hh
              split at hh
              · rename_i e1 heq
                exact ih v vis1 hkm1 hr1 (hrows v (List.mem_cons_self _ _)) hw1 e1 heq
              · exact absurd hh (by simp)
              · rename_i v1 heq
                have hst := (dfs_structure g f v vis1 false v1 heq).1
                exact ihl v1 (fun w hwm => hrows w (List.mem_cons_of_mem _ hwm))
                  (keysMatch_of_keysEq g vis1 v1 hst.1 hkm1) (hst.2.2.2.1 hr1)
                  (Nat.lt_of_le_of_lt hst.2.1 hw1) e hh
          split at h
          · rename_i e1 heq
            exact hlist _ _ hdeps hkm1 hr1 hw1 e1 heq
          · exact absurd h (by simp)
          · exact absurd h (by simp)

theorem hasCycleLoop_no_error (g : Graph)
    (hclosed : ∀ p ∈ g, ∀ d ∈ p.2, (alGet g d).isSome) (fuel : Nat) :
    ∀ (ns : List String) (vis : Visited),
      KeysMatch g vis → VisRange vis → (∀ n ∈ ns, (alGet g n).isSome) →
      whiteCount vis < fuel →
      ∀ e, hasCycleLoop g fuel ns vis ≠ .error e := by
  intro ns
  induction ns with
  | nil => intro vis _ _ _ _ e h; simp [hasCycleLoop] at h
  | cons n rest ih =>
    intro vis hkm hr hrows hw e h
    simp only [hasCycleLoop] at h
    split at h
    · split at h
      · rename_i e1 heq
        exact dfs_no_error g hclosed fuel n vis hkm hr
          (hrows n (List.mem_cons_self _ _)) hw e1 heq
      · exact absurd h (by simp)
      · rename_i v1 heq
        have hst := (dfs_structure g fuel n vis false v1 heq).1
        exact ih v1 (keysMatch_of_keysEq g vis v1 hst.1 hkm) (hst.2.2.2.1 hr)
          (fun w hwm => hrows w (List.mem_cons_of_mem _ hwm))
          (Nat.lt_of_le_of_lt hst.2.1 hw) e h
    · exact ih vis hkm hr (fun w hwm => hrows w (List.mem_cons_of_mem _ hwm)) hw e h

/-- On a closed graph (unique or not, every dependency has a row),
`has_cycle` returns a boolean. -/
theorem has_cycle_total (g : Graph) (hclosed : closedB g = true) :
    ∃ b, has_cycle g = .ok b := by
  have hc : ∀ p ∈ g, ∀ d ∈ p.2, (alGet g d).isSome := by
    intro p hp d hd
    simp only [closedB, List.all_eq_true] at hclosed
    exact hclosed p hp d hd
  cases hres : has_cycle g with
  | ok b => exact ⟨b, rfl⟩
  | error e =>
    exfalso
    revert hres
    simp only [has_cycle]
    intro hres
    refine hasCycleLoop_no_error g hc (g.length + 1) _ _ (keysMatch_init g)
      (visRange_init g) ?_ ?_ e hres
    · intro n hn
      exact (alGet_isSome_iff_mem g n).mpr hn
    · rw [whiteCount_init]
      omega

/-! ### The amended cycle-detector claims (C6, C5) -/

/-- Claim C6, amended: for every graph in which each dependency entry has
a row of its own (as a counterexample shows, a dangling entry can make
`has_cycle` raise `KeyError` instead of returning a boolean),
`has_cycle` returns a boolean which is `True` iff a directed cycle is
reachable via the graph's edges; in particular it returns `False` for the
empty graph and for any single-node graph with no edges. -/
theorem c6_amended_hasCycle_iff (g : Graph) (hclosed : closedB g = true) :
    (∃ b, has_cycle g = .ok b)
  ∧ (has_cycle g = .ok true ↔ HasCycleSpec g)
  ∧ has_cycle [] = .ok false
  ∧ (∀ n, has_cycle [(n, [])] = .ok false) := by
  obtain ⟨b, hb⟩ := has_cycle_total g hclosed
  refine ⟨⟨b, hb⟩, ⟨has_cycle_sound g, ?_⟩, rfl, ?_⟩
  · intro hcyc
    cases b with
    | false => exact absurd hcyc (has_cycle_complete g hb)
    | true => exact hb
  · intro n
    have hcl : closedB [(n, [])] = true := by simp [closedB]
    obtain ⟨b1, hb1⟩ := has_cycle_total [(n, [])] hcl
    cases b1 with
    | false => exact hb1
    | true =>
      exfalso
      obtain ⟨z, hz⟩ := has_cycle_sound _ hb1
      obtain ⟨x, hedge, _⟩ := Relation.TransGen.head'_iff.mp hz
      obtain ⟨deps, hgz, hxdeps⟩ := hedge
      simp only [alGet] at hgz
      split at hgz
      · simp only [Option.some.injEq] at hgz
        subst hgz
        simp at hxdeps
      · simp [alGet] at hgz

/-- Claim C6 witness at a concrete closed two-node graph. -/
theorem c6_amended_witness :
    closedB [("A", ["B"]), ("B", [])] = true
  ∧ ((∃ b, has_cycle [("A", ["B"]), ("B", [])] = .ok b)
     ∧ (has_cycle [("A", ["B"]), ("B", [])] = .ok true
          ↔ HasCycleSpec [("A", ["B"]), ("B", [])])
     ∧ has_cycle [] = .ok false
     ∧ (∀ n, has_cycle [(n, [])] = .ok false)) :=
  ⟨rfl, c6_amended_hasCycle_iff [("A", ["B"]), ("B", [])] rfl⟩

/-- Claim C5, amended: `topological_sort_kahn` on a cyclic graph never
returns a list — for any in-degree map — and when every dependency entry
of the cyclic graph has a row (as a counterexample shows, a dangling
entry can surface as a `KeyError` instead), the failure is specifically
the `GraphCycle`-class `ValueError`. -/
theorem c5_amended_cyclic_never_list (g : Graph) (indeg : Indeg)
    (hcyc : HasCycleSpec g) :
    (∀ res, topological_sort_kahn g indeg ≠ .ok res)
  ∧ (closedB g = true → topological_sort_kahn g indeg = .error .graphCycle) := by
  constructor
  · intro res h
    simp only [topological_sort_kahn] at h
    split at h
    · exact absurd h (by simp)
    · exact absurd h (by simp)
    · rename_i hfalse
      exact absurd hcyc (has_cycle_complete g hfalse)
  · intro hclosed
    obtain ⟨b, hb⟩ := has_cycle_total g hclosed
    cases b with
    | false => exact absurd hcyc (has_cycle_complete g hb)
    | true =>
      simp only [topological_sort_kahn]
      rw [hb]

/-- Claim C5 witness at a concrete closed one-node cyclic graph. -/
theorem c5_amended_witness :
    HasCycleSpec [("A", ["A"])]
  ∧ ((∀ res, topological_sort_kahn [("A", ["A"])] [("A", 1)] ≠ .ok res)
     ∧ (closedB [("A", ["A"])] = true →
        topological_sort_kahn [("A", ["A"])] [("A", 1)] = .error .graphCycle)) :=
  ⟨⟨"A", Relation.TransGen.single ⟨["A"], rfl, by simp⟩⟩,
   c5_amended_cyclic_never_list [("A", ["A"])] [("A", 1)]
     ⟨"A", Relation.TransGen.single ⟨["A"], rfl, by simp⟩⟩⟩

/-! ### The Kahn sequencer: auxiliary list lemmas -/

theorem alGet_of_mem_nodup {β : Type} (m : List (String × β)) (k : String) (v : β)
    (hmem : (k, v) ∈ m) (hnd : (alKeys m).Nodup) : alGet m k = some v := by
  induction m with
  | nil => simp at hmem
  | cons p rest ih =>
    obtain ⟨a, b⟩ := p
    simp only [alKeys, List.map_cons, List.nodup_cons] at hnd
    rcases List.mem_cons.mp hmem with heq | hmem'
    · injection heq with h1 h2
      subst h1; subst h2
      simp [alGet]
    · have hak : a ≠ k := by
        intro hh; subst hh
        exact hnd.1 (List.mem_map_of_mem Prod.fst hmem')
      simp only [alGet, if_neg hak]
      exact ih hmem' hnd.2

theorem subset_of_filter_length_eq (t s : List String)
    (hnd : t.Nodup) (hlen : (t.filter (fun x => decide (x ∈ s))).length = s.length) :
    ∀ x ∈ s, x ∈ t := by
  intro x hx
  by_contra hxt
  have hfnd : (x :: t.filter (fun x => decide (x ∈ s))).Nodup := by
    refine List.nodup_cons.mpr ⟨?_, hnd.filter _⟩
    intro hxf
    exact hxt (List.mem_of_mem_filter hxf)
  have hsub : (x :: t.filter (fun x => decide (x ∈ s))) ⊆ s := by
    intro a ha
    rcases List.mem_cons.mp ha with rfl | haf
    · exact hx
    · simpa using List.of_mem_filter haf
  have hle := (List.subperm_of_subset hfnd hsub).length_le
  rw [List.length_cons, hlen] at hle
  omega

theorem length_filter_split (l : List String) (p q : String → Bool) :
    (l.filter p).length
      = (l.filter (fun a => p a && q a)).length
          + (l.filter (fun a => p a && !q a)).length := by
  induction l with
  | nil => simp
  | cons a rest ih =>
    by_cases hp : p a
    · by_cases hq : q a
      · simp [List.filter_cons, hp, hq, ih]
        omega
      · simp [List.filter_cons, hp, hq, ih]
        omega
    · simp [List.filter_cons, hp, ih]

theorem mem_kahn_result (g : Graph) (hg : (alKeys g).Nodup) (u v : String) :
    v ∈ (g.filter (fun p => decide (u ∈ p.2))).map Prod.fst
      ↔ ∃ deps, alGet g v = some deps ∧ u ∈ deps := by
  constructor
  · intro hv
    obtain ⟨p, hpf, hfst⟩ := List.mem_map.mp hv
    obtain ⟨hpg, hdec⟩ := List.mem_filter.mp hpf
    subst hfst
    exact ⟨p.2, alGet_of_mem_nodup g p.1 p.2 hpg hg, by simpa using hdec⟩
  · rintro ⟨deps, hget, hu⟩
    exact List.mem_map.mpr ⟨(v, deps),
      List.mem_filter.mpr ⟨alGet_mem g v deps hget, by simpa using hu⟩, rfl⟩

theorem kahn_result_nodup (g : Graph) (hg : (alKeys g).Nodup) (u : String) :
    ((g.filter (fun p => decide (u ∈ p.2))).map Prod.fst).Nodup :=
  hg.sublist ((List.filter_sublist g).map Prod.fst)

theorem orderOK_append (g : Graph) (topo : List String) (u : String)
    (hord : OrderOK g topo)
    (hu : ∀ deps, alGet g u = some deps → ∀ d ∈ deps, d ∈ topo) :
    OrderOK g (topo ++ [u]) := by
  intro i node deps hi hrow d hd
  rcases Nat.lt_trichotomy i topo.length with hlt | heq | hgt
  · rw [List.getElem?_append_left hlt] at hi
    obtain ⟨j, hj, hjd⟩ := hord i node deps hi hrow d hd
    have hjlt : j < topo.length := Nat.lt_trans hj hlt
    exact ⟨j, hj, by rw [List.getElem?_append_left hjlt]; exact hjd⟩
  · subst heq
    rw [List.getElem?_concat_length] at hi
    injection hi with hnode
    subst hnode
    have hdt := hu deps hrow d hd
    obtain ⟨j, hjd⟩ := List.getElem?_of_mem hdt
    have hjlt : j < topo.length := by
      by_contra hge
      rw [List.getElem?_eq_none (Nat.le_of_not_lt hge)] at hjd
      cases hjd
    exact ⟨j, hjlt, by rw [List.getElem?_append_left hjlt]; exact hjd⟩
  · rw [List.getElem?_eq_none (by simp; omega)] at hi
    cases hi

theorem decLoop_cons_eq (v₀ : String) (rest : List String) (indeg : Indeg)
    (qacc : List String) (d : Int) (h : alGet indeg v₀ = some d) :
    decLoop (v₀ :: rest) indeg qacc
      = decLoop rest (alSet indeg v₀ (d - 1))
          (if d - 1 = 0 then qacc ++ [v₀] else qacc) := by
  rw [decLoop, h]

/-- The decrement loop of one Kahn iteration, specified against the
invariant: processing the rescan result `rs` (the dependants of the
dequeued node `u`) moves every graph node's count from the `topo` form to
the `topo ++ [u]` form, enqueues exactly the nodes whose count reaches 0,
and preserves distinctness, readiness and the zero-entry bookkeeping. -/
theorem decLoop_spec (g : Graph) (hg : (alKeys g).Nodup) (u : String)
    (topo qs : List String)
    (H_ord : OrderOK g topo)
    (H_u : ∀ deps, alGet g u = some deps → ∀ d ∈ deps, d ∈ topo)
    (H_qs : ∀ v ∈ qs, ∀ deps, alGet g v = some deps → ∀ d ∈ deps, d ∈ topo) :
    ∀ (rs : List String) (indeg : Indeg) (qacc : List String),
      rs.Nodup →
      (∀ v ∈ rs, ∃ deps, alGet g v = some deps ∧ u ∈ deps) →
      ((topo ++ [u]) ++ qacc).Nodup →
      (∀ v ∈ qacc, ∀ deps, alGet g v = some deps → ∀ d ∈ deps, d ∈ topo ++ [u]) →
      (∀ v deps, alGet g v = some deps →
        alGet indeg v = some ((deps.length : Int) -
          (((if v ∈ rs then topo else topo ++ [u]).filter
              (fun x => decide (x ∈ deps))).length : Int))) →
      (∀ v deps, alGet g v = some deps → alGet indeg v = some 0 →
        v ∈ (topo ++ [u]) ++ qacc) →
      (∀ v ∈ rs, v ∈ qacc → v ∈ qs) →
      (∀ v ∈ qacc, v ∈ qs ∨ v ∈ alKeys g) →
      ∃ indeg' queue', decLoop rs indeg qacc = .ok (indeg', queue')
        ∧ ((topo ++ [u]) ++ queue').Nodup
        ∧ (∀ v ∈ queue', ∀ deps, alGet g v = some deps → ∀ d ∈ deps, d ∈ topo ++ [u])
        ∧ (∀ v deps, alGet g v = some deps →
            alGet indeg' v = some ((deps.length : Int) -
              (((topo ++ [u]).filter (fun x => decide (x ∈ deps))).length : Int)))
        ∧ (∀ v deps, alGet g v = some deps → alGet indeg' v = some 0 →
            v ∈ (topo ++ [u]) ++ queue')
        ∧ (∀ v ∈ queue', v ∈ qs ∨ v ∈ alKeys g)
        ∧ (∃ newly, queue' = qacc ++ newly) := by
  intro rs
  induction rs with
  | nil =>
    intro indeg qacc _ _ ha hb hc hd _ hsub
    refine ⟨indeg, qacc, rfl, ha, hb, ?_, hd, hsub, [], (List.append_nil qacc).symm⟩
    intro v deps hrow
    simpa using hc v deps hrow
  | cons v₀ rest ih =>
    intro indeg qacc hrsnd hrsmem ha hb hc hd hf hsub
    obtain ⟨deps₀, hrow₀, hu₀⟩ := hrsmem v₀ (List.mem_cons_self _ _)
    have hv₀rest : v₀ ∉ rest := (List.nodup_cons.mp hrsnd).1
    have hentry := hc v₀ deps₀ hrow₀
    rw [if_pos (List.mem_cons_self _ _)] at hentry
    have hutopo : u ∉ topo := by
      have := (List.nodup_append.mp (((List.sublist_append_left (topo ++ [u]) qacc).nodup) ha)).2.2
      intro hx; exact this hx (List.mem_singleton_self u)
    -- the new count for v₀ after the decrement
    have hfilter₀ : (((topo ++ [u]).filter (fun x => decide (x ∈ deps₀))).length : Int)
        = ((topo.filter (fun x => decide (x ∈ deps₀))).length : Int) + 1 := by
      rw [List.filter_append]
      simp [hu₀]
    -- new mixed count invariant after the decrement
    have hc' : ∀ v deps, alGet g v = some deps →
        alGet (alSet indeg v₀
            (((deps₀.length : Int) -
              ((topo.filter (fun x => decide (x ∈ deps₀))).length : Int)) - 1)) v
          = some ((deps.length : Int) -
            (((if v ∈ rest then topo else topo ++ [u]).filter
                (fun x => decide (x ∈ deps))).length : Int)) := by
      intro v deps hrow
      by_cases hvv : v = v₀
      · subst hvv
        have hds := hrow₀.symm.trans hrow
        rw [Option.some_inj] at hds
        subst hds
        rw [alGet_alSet_self, if_neg hv₀rest]
        congr 1
        rw [hfilter₀]
        ring
      · rw [alGet_alSet_ne _ _ _ _ hvv]
        have hthis := hc v deps hrow
        by_cases hvr : v ∈ rest
        · rw [if_pos (List.mem_cons_of_mem _ hvr)] at hthis
          rw [if_pos hvr]
          exact hthis
        · rw [if_neg (by simp [hvv, hvr])] at hthis
          rw [if_neg hvr]
          exact hthis
    by_cases hzero : ((deps₀.length : Int) -
        ((topo.filter (fun x => decide (x ∈ deps₀))).length : Int)) - 1 = 0
    · -- v₀'s count reaches 0: it is enqueued
      -- all of v₀'s dependencies are in topo ++ [u]
      have htopo'nd : (topo ++ [u]).Nodup :=
        ((List.sublist_append_left (topo ++ [u]) qacc).nodup) ha
      have hlen : (((topo ++ [u]).filter (fun x => decide (x ∈ deps₀))).length : Int)
          = (deps₀.length : Int) := by
        rw [hfilter₀]; omega
      have hdeps₀sub : ∀ d ∈ deps₀, d ∈ topo ++ [u] :=
        subset_of_filter_length_eq _ _ htopo'nd (by exact_mod_cast hlen)
      -- v₀ is not already emitted or queued
      have hv₀new : v₀ ∉ (topo ++ [u]) ++ qacc := by
        intro hmem
        rcases List.mem_append.mp hmem with hmem' | hqacc
        · rcases List.mem_append.mp hmem' with htopo | hsing
          · -- emitted: its dependencies (hence u) would be emitted earlier
            obtain ⟨i, hi⟩ := List.getElem?_of_mem htopo
            obtain ⟨j, _, hju⟩ := H_ord i v₀ deps₀ hi hrow₀ u hu₀
            exact hutopo (List.getElem?_mem hju)
          · -- v₀ = u: u would list itself, but its deps are all emitted
            have : v₀ = u := by simpa using hsing
            subst this
            exact hutopo (H_u deps₀ hrow₀ v₀ hu₀)
        · -- already queued: a queued node has all dependencies emitted
          have hqs := hf v₀ (List.mem_cons_self _ _) hqacc
          exact hutopo (H_qs v₀ hqs deps₀ hrow₀ u hu₀)
      have ha' : ((topo ++ [u]) ++ (qacc ++ [v₀])).Nodup := by
        rw [← List.append_assoc (topo ++ [u]) qacc [v₀]]
        rw [List.nodup_append]
        refine ⟨ha, List.nodup_singleton _, ?_⟩
        intro x hx hx'
        have hxv : x = v₀ := by simpa using hx'
        subst hxv
        exact hv₀new hx
      rw [decLoop_cons_eq v₀ rest indeg qacc _ hentry, if_pos hzero]
      have hrec := ih (alSet indeg v₀ _) (qacc ++ [v₀])
        (List.nodup_cons.mp hrsnd).2
        (fun v hv => hrsmem v (List.mem_cons_of_mem _ hv))
        ha'
        (by
          intro v hv deps hrow d hd
          rcases List.mem_append.mp hv with hv' | hv''
          · exact hb v hv' deps hrow d hd
          · have : v = v₀ := by simpa using hv''
            subst this
            have hds := hrow₀.symm.trans hrow
            rw [Option.some_inj] at hds
            subst hds
            exact hdeps₀sub d hd)
        hc'
        (by
          intro v deps hrow h0
          by_cases hvv : v = v₀
          · subst hvv
            exact List.mem_append.mpr (Or.inr (List.mem_append.mpr
              (Or.inr (List.mem_singleton_self _))))
          · rw [alGet_alSet_ne _ _ _ _ hvv] at h0
            have := hd v deps hrow h0
            rcases List.mem_append.mp this with h1 | h2
            · exact List.mem_append.mpr (Or.inl h1)
            · exact List.mem_append.mpr (Or.inr (List.mem_append.mpr (Or.inl h2))))
        (by
          intro v hv hvq
          rcases List.mem_append.mp hvq with h1 | h2
          · exact hf v (List.mem_cons_of_mem _ hv) h1
          · have : v = v₀ := by simpa using h2
            subst this
            exact absurd hv hv₀rest)
        (by
          intro v hv
          rcases List.mem_append.mp hv with h1 | h2
          · exact hsub v h1
          · have : v = v₀ := by simpa using h2
            subst this
            exact Or.inr ((alGet_isSome_iff_mem g v).mp (by rw [hrow₀]; rfl)))
      obtain ⟨indeg', queue', hrun, hA, hB, hC, hD, hSub, newly, hnewly⟩ := hrec
      exact ⟨indeg', queue', hrun, hA, hB, hC, hD, hSub,
        [v₀] ++ newly, by rw [hnewly, List.append_assoc]⟩
    · -- v₀'s count stays nonzero: queue unchanged
      rw [decLoop_cons_eq v₀ rest indeg qacc _ hentry, if_neg hzero]
      refine ih (alSet indeg v₀ _) qacc
        (List.nodup_cons.mp hrsnd).2
        (fun v hv => hrsmem v (List.mem_cons_of_mem _ hv))
        ha hb hc'
        (by
          intro v deps hrow h0
          by_cases hvv : v = v₀
          · subst hvv
            rw [alGet_alSet_self] at h0
            injection h0 with h0'
            exact absurd h0' hzero
          · rw [alGet_alSet_ne _ _ _ _ hvv] at h0
            exact hd v deps hrow h0)
        (fun v hv hvq => hf v (List.mem_cons_of_mem _ hv) hvq)
        hsub

/-- Main lemma of the Kahn loop: from a state satisfying the invariant,
with enough fuel, the loop returns a final list and in-degree state
satisfying the invariant with an empty queue, and emits only nodes that
were already pending or are graph nodes. -/
theorem kahnLoop_master (g : Graph) (hg : (alKeys g).Nodup) :
    ∀ (fuel : Nat) (queue topo : List String) (indeg : Indeg),
      KahnInv g queue topo indeg →
      queue.length + ((alKeys g).filter
        (fun k => decide (¬ k ∈ topo ++ queue))).length ≤ fuel →
      ∃ final indegF, kahnLoop g fuel queue topo indeg = .ok (final, indegF)
        ∧ KahnInv g [] final indegF
        ∧ (∀ k ∈ final, k ∈ topo ++ queue ∨ k ∈ alKeys g) := by
  intro fuel
  induction fuel with
  | zero =>
    intro queue topo indeg hinv hfuel
    cases queue with
    | nil =>
      exact ⟨topo, indeg, rfl, hinv, fun k hk => Or.inl (by simpa using hk)⟩
    | cons u qs => simp at hfuel
  | succ f ih =>
    intro queue topo indeg hinv hfuel
    cases queue with
    | nil => exact ⟨topo, indeg, rfl, hinv, fun k hk => Or.inl (by simpa using hk)⟩
    | cons u qs =>
      obtain ⟨hnd, hI2, hI3, hOrd, hI5⟩ := hinv
      have hndR : ((topo ++ [u]) ++ qs).Nodup := by
        rwa [List.append_cons] at hnd
      have hspec := decLoop_spec g hg u topo qs hOrd
        (hI3 u (List.mem_cons_self _ _))
        (fun v hv => hI3 v (List.mem_cons_of_mem _ hv))
        ((g.filter (fun p => decide (u ∈ p.2))).map Prod.fst) indeg qs
        (kahn_result_nodup g hg u)
        (fun v hv => (mem_kahn_result g hg u v).mp hv)
        hndR
        (fun v hv deps hrow d hd =>
          List.mem_append.mpr (Or.inl (hI3 v (List.mem_cons_of_mem _ hv) deps hrow d hd)))
        (by
          intro v deps hrow
          by_cases hvr : v ∈ (g.filter (fun p => decide (u ∈ p.2))).map Prod.fst
          · rw [if_pos hvr]; exact hI2 v deps hrow
          · rw [if_neg hvr]
            have hudeps : u ∉ deps := by
              intro hu
              exact hvr ((mem_kahn_result g hg u v).mpr ⟨deps, hrow, hu⟩)
            have hfe : (topo ++ [u]).filter (fun x => decide (x ∈ deps))
                = topo.filter (fun x => decide (x ∈ deps)) := by
              rw [List.filter_append]
              simp [hudeps]
            rw [hfe]
            exact hI2 v deps hrow)
        (by
          intro v deps hrow h0
          have hmem := hI5 v deps hrow h0
          rwa [List.append_cons] at hmem)
        (fun v _ hq => hq)
        (fun v hv => Or.inl hv)
      obtain ⟨indeg', queue', hdec, hA, hB, hC, hD, hSub, newly, hnewly⟩ := hspec
      have hstep : kahnLoop g (f + 1) (u :: qs) topo indeg
          = kahnLoop g f queue' (topo ++ [u]) indeg' := by
        show kahnStep g (kahnLoop g f) (u :: qs) topo indeg = _
        rw [kahnStep, hdec]
      have hinv' : KahnInv g queue' (topo ++ [u]) indeg' :=
        ⟨hA, hC, hB,
          orderOK_append g topo u hOrd (hI3 u (List.mem_cons_self _ _)), hD⟩
      have hAn := hA
      rw [hnewly] at hAn
      have hqsn : (qs ++ newly).Nodup := (List.nodup_append.mp hAn).2.1
      have hnewlyNodup : newly.Nodup := (List.nodup_append.mp hqsn).2.1
      have hnewlyKeys : ∀ k ∈ newly, k ∈ alKeys g := by
        intro k hk
        have hkq : k ∈ queue' := by
          rw [hnewly]; exact List.mem_append.mpr (Or.inr hk)
        rcases hSub k hkq with hkqs | hkkeys
        · exact absurd hk ((List.nodup_append.mp hqsn).2.2 hkqs)
        · exact hkkeys
      have hnewlyFresh : ∀ k ∈ newly, ¬ k ∈ topo ++ u :: qs := by
        intro k hk hmem
        rw [List.append_cons] at hmem
        rcases List.mem_append.mp hmem with h1 | h2
        · exact (List.nodup_append.mp hAn).2.2 h1 (List.mem_append.mpr (Or.inr hk))
        · exact (List.nodup_append.mp hqsn).2.2 h2 hk
      have hcount : newly.length
            + ((alKeys g).filter
                (fun k => decide (¬ k ∈ (topo ++ [u]) ++ queue'))).length
          ≤ ((alKeys g).filter (fun k => decide (¬ k ∈ topo ++ u :: qs))).length := by
        rw [length_filter_split (alKeys g)
          (fun k => decide (¬ k ∈ topo ++ u :: qs)) (fun k => decide (k ∈ newly))]
        have heq2 : (alKeys g).filter
            (fun a => decide (¬ a ∈ topo ++ u :: qs) && !decide (a ∈ newly))
            = (alKeys g).filter (fun k => decide (¬ k ∈ (topo ++ [u]) ++ queue')) := by
          apply List.filter_congr
          intro a _
          rw [← decide_not, ← Bool.decide_and, decide_eq_decide, hnewly]
          simp only [List.mem_append, List.mem_cons, List.mem_singleton]
          tauto
        have hge : newly.length ≤ ((alKeys g).filter
            (fun a => decide (¬ a ∈ topo ++ u :: qs) && decide (a ∈ newly))).length := by
          have hsubn : newly ⊆ (alKeys g).filter
              (fun a => decide (¬ a ∈ topo ++ u :: qs) && decide (a ∈ newly)) := by
            intro k hk
            rw [List.mem_filter]
            refine ⟨hnewlyKeys k hk, ?_⟩
            simp [hnewlyFresh k hk, hk]
          exact (List.subperm_of_subset hnewlyNodup hsubn).length_le
        rw [heq2] at *
        omega
      have hfuel' : queue'.length + ((alKeys g).filter
          (fun k => decide (¬ k ∈ (topo ++ [u]) ++ queue'))).length ≤ f := by
        have hql : queue'.length = qs.length + newly.length := by
          rw [hnewly]; simp
        simp only [List.length_cons] at hfuel
        omega
      obtain ⟨final, indegF, hrun, hinvF, hmem⟩ :=
        ih queue' (topo ++ [u]) indeg' hinv' hfuel'
      refine ⟨final, indegF, by rw [hstep]; exact hrun, hinvF, ?_⟩
      intro k hk
      rcases hmem k hk with hmem1 | hmem2
      · rw [hnewly] at hmem1
        rcases List.mem_append.mp hmem1 with h1 | h2
        · left
          rw [List.append_cons]
          exact List.mem_append.mpr (Or.inl h1)
        · rcases List.mem_append.mp h2 with h3 | h4
          · left
            rw [List.append_cons]
            exact List.mem_append.mpr (Or.inr h3)
          · right; exact hnewlyKeys k h4
      · right; exact hmem2

/-- The sequencer's initial state satisfies the loop invariant when the
caller's in-degree map is the per-occurrence one. -/
theorem kahn_initial_inv (g : Graph) (indeg : Indeg)
    (hg : (alKeys g).Nodup) (hi : (alKeys indeg).Nodup)
    (hmatch : ∀ p ∈ g, alGet indeg p.1 = some ((p.2.length : Int))) :
    KahnInv g ((indeg.filter (fun p => decide (p.2 = 0))).map Prod.fst) [] indeg := by
  have hq0 : ∀ v ∈ (indeg.filter (fun p => decide (p.2 = 0))).map Prod.fst,
      alGet indeg v = some 0 := by
    intro v hv
    obtain ⟨p, hpf, hfst⟩ := List.mem_map.mp hv
    obtain ⟨hpg, hdec⟩ := List.mem_filter.mp hpf
    subst hfst
    have hz : p.2 = 0 := by simpa using hdec
    have := alGet_of_mem_nodup indeg p.1 p.2 hpg hi
    rw [hz] at this
    exact this
  refine ⟨?_, ?_, ?_, ?_, ?_⟩
  · simpa using hi.sublist ((List.filter_sublist indeg).map Prod.fst)
  · intro v deps hrow
    have := hmatch (v, deps) (alGet_mem g v deps hrow)
    simpa using this
  · intro v hv deps hrow d hd
    have h0 := hq0 v hv
    have hm := hmatch (v, deps) (alGet_mem g v deps hrow)
    rw [h0] at hm
    have hlen : deps.length = 0 := by
      injection hm with hh
      exact_mod_cast hh.symm
    have hnil : deps = [] := List.length_eq_zero.mp hlen
    subst hnil
    cases hd
  · intro i node deps hi' hrow d hd
    simp at hi'
  · intro v deps hrow h0
    have hmem : (v, (0 : Int)) ∈ indeg := alGet_mem indeg v 0 h0
    refine List.mem_append.mpr (Or.inr ?_)
    exact List.mem_map.mpr ⟨(v, 0), List.mem_filter.mpr ⟨hmem, by simp⟩, rfl⟩

/-- A full run of `topological_sort_kahn` on a graph with unique keys, a
matching per-occurrence in-degree map and a passed cycle check. -/
theorem kahn_run_spec (g : Graph) (indeg : Indeg)
    (hg : (alKeys g).Nodup) (hi : (alKeys indeg).Nodup)
    (hmatch : ∀ p ∈ g, alGet indeg p.1 = some ((p.2.length : Int)))
    (hfalse : has_cycle g = .ok false) :
    ∃ final indegF, topological_sort_kahn g indeg = .ok (final, indegF)
      ∧ KahnInv g [] final indegF
      ∧ (∀ k ∈ final, k ∈ alKeys indeg ∨ k ∈ alKeys g) := by
  have hfuel : ((indeg.filter (fun p => decide (p.2 = 0))).map Prod.fst).length
      + ((alKeys g).filter (fun k => decide (¬ k ∈
          ([] : List String) ++ (indeg.filter (fun p => decide (p.2 = 0))).map Prod.fst))).length
      ≤ g.length + indeg.length + 1 := by
    have h1 : ((indeg.filter (fun p => decide (p.2 = 0))).map Prod.fst).length
        ≤ indeg.length := by
      rw [List.length_map]
      exact List.length_filter_le _ _
    have h2 : ((alKeys g).filter (fun k => decide (¬ k ∈
        ([] : List String) ++ (indeg.filter (fun p => decide (p.2 = 0))).map Prod.fst))).length
        ≤ g.length := by
      have := List.length_filter_le (fun k => decide (¬ k ∈
        ([] : List String) ++ (indeg.filter (fun p => decide (p.2 = 0))).map Prod.fst)) (alKeys g)
      simpa [alKeys] using this
    omega
  have hmaster := kahnLoop_master g hg (g.length + indeg.length + 1)
    ((indeg.filter (fun p => decide (p.2 = 0))).map Prod.fst) [] indeg
    (kahn_initial_inv g indeg hg hi hmatch) hfuel
  obtain ⟨final, indegF, hrun, hinvF, hmem⟩ := hmaster
  refine ⟨final, indegF, ?_, hinvF, ?_⟩
  · simp only [topological_sort_kahn]
    rw [hfalse]
    exact hrun
  · intro k hk
    rcases hmem k hk with h | h
    · left
      have hq : k ∈ (indeg.filter (fun p => decide (p.2 = 0))).map Prod.fst := by
        simpa using h
      exact ((List.filter_sublist indeg).map Prod.fst).subset hq
    · right; exact h

/-- Claim C3: for every graph (unique keys, as for a dict) together with
its per-occurrence in-degree map, whenever `topological_sort_kahn` returns
a list, that list never places a node before any of its dependencies: if
`dep` occurs in `node`'s dependency list and `node` appears at position
`i` of the output, then `dep` appears at some position `j < i`.  (The
acyclicity demanded by the claim is subsumed: a run that returns a list
has already passed the cycle check.) -/
theorem c3_topo_sort_dependencies_first (g : Graph) (indeg : Indeg)
    (topo : List String) (indegF : Indeg)
    (hg : (alKeys g).Nodup) (hi : (alKeys indeg).Nodup)
    (hmatch : ∀ p ∈ g, alGet indeg p.1 = some ((p.2.length : Int)))
    (hrun : topological_sort_kahn g indeg = .ok (topo, indegF))
    (node : String) (deps : List String) (hnode : alGet g node = some deps)
    (dep : String) (hdep : dep ∈ deps)
    (i : Nat) (hidx : topo[i]? = some node) :
    ∃ j, j < i ∧ topo[j]? = some dep := by
  have hfalse : has_cycle g = .ok false := by
    revert hrun
    simp only [topological_sort_kahn]
    split
    · intro h; cases h
    · intro h; cases h
    · rename_i hres
      intro _; exact hres
  obtain ⟨final, indegF', hrun', hinvF, _⟩ :=
    kahn_run_spec g indeg hg hi hmatch hfalse
  rw [hrun] at hrun'
  injection hrun' with hpair
  injection hpair with hfinal hindegF
  subst hfinal
  exact hinvF.2.2.2.1 i node deps hidx hnode dep hdep

/-- Claim C3 witness: the two-node graph `{A: [], B: [A]}` with in-degree
map `{A: 0, B: 1}`; the run emits `["A", "B"]` and the dependency `A` of
`B` (at position 1) indeed appears earlier. -/
theorem c3_witness :
    (alKeys ([("A", []), ("B", ["A"])] : Graph)).Nodup
  ∧ (alKeys ([("A", 0), ("B", 1)] : Indeg)).Nodup
  ∧ (∀ p ∈ ([("A", []), ("B", ["A"])] : Graph),
      alGet ([("A", 0), ("B", 1)] : Indeg) p.1 = some ((p.2.length : Int)))
  ∧ topological_sort_kahn [("A", []), ("B", ["A"])] [("A", 0), ("B", 1)]
      = .ok (["A", "B"], [("A", 0), ("B", 0)])
  ∧ alGet ([("A", []), ("B", ["A"])] : Graph) "B" = some ["A"]
  ∧ "A" ∈ ["A"]
  ∧ (["A", "B"] : List String)[1]? = some "B"
  ∧ (∃ j, j < 1 ∧ (["A", "B"] : List String)[j]? = some "A") := by
  refine ⟨by decide, by decide, by decide, by rfl, by rfl, by decide, by rfl, ?_⟩
  exact c3_topo_sort_dependencies_first
    [("A", []), ("B", ["A"])] [("A", 0), ("B", 1)]
    ["A", "B"] [("A", 0), ("B", 0)]
    (by decide) (by decide) (by decide) (by rfl)
    "B" ["A"] (by rfl) "A" (by decide) 1 (by rfl)

/-! ### Completeness of the Kahn sequencer (C4, C9) -/

theorem filter_length_eq_of_subset (final deps : List String)
    (hfin : final.Nodup) (hdeps : deps.Nodup)
    (hsub : ∀ d ∈ deps, d ∈ final) :
    (final.filter (fun x => decide (x ∈ deps))).length = deps.length := by
  have h1 : (final.filter (fun x => decide (x ∈ deps))).Nodup := hfin.filter _
  have h2 : (final.filter (fun x => decide (x ∈ deps))) ⊆ deps := by
    intro x hx
    have hp := List.of_mem_filter hx
    simpa using hp
  have hle := (List.subperm_of_subset h1 h2).length_le
  have h3 : deps ⊆ final.filter (fun x => decide (x ∈ deps)) := by
    intro d hd
    exact List.mem_filter.mpr ⟨hsub d hd, by simpa using hd⟩
  have hge := (List.subperm_of_subset hdeps h3).length_le
  omega

theorem exists_dep_not_in (final deps : List String)
    (hfin : final.Nodup) (hdeps : deps.Nodup)
    (hne : ((deps.length : Int) -
      (((final.filter (fun x => decide (x ∈ deps))).length : Int))) ≠ 0) :
    ∃ d ∈ deps, d ∉ final := by
  by_contra h
  push_neg at h
  have heq := filter_length_eq_of_subset final deps hfin hdeps h
  omega

theorem closed_mem_keys (g : Graph) (hclosed : closedB g = true)
    (v : String) (deps : List String) (hrow : alGet g v = some deps)
    (d : String) (hd : d ∈ deps) : d ∈ alKeys g := by
  have hp := alGet_mem g v deps hrow
  simp only [closedB, List.all_eq_true] at hclosed
  have hsome := hclosed (v, deps) hp d hd
  exact (alGet_isSome_iff_mem g d).mp (by simpa using hsome)

/-- Pigeonhole: a nonempty finite set of nodes in which every node has an
edge-successor inside the set yields a directed cycle. -/
theorem cycle_of_succ (g : Graph) (S : Finset String)
    (hne : S.Nonempty)
    (hsucc : ∀ u ∈ S, ∃ v ∈ S, Edge g u v) :
    HasCycleSpec g := by
  classical
  have hF : ∀ u : {x // x ∈ S}, ∃ v : {x // x ∈ S}, Edge g u.val v.val := by
    rintro ⟨u, hu⟩
    obtain ⟨v, hv, he⟩ := hsucc u hu
    exact ⟨⟨v, hv⟩, he⟩
  choose F hFe using hF
  obtain ⟨u₀, hu₀⟩ := hne
  have hchain : ∀ (m : Nat) (z : {x // x ∈ S}),
      Relation.TransGen (Edge g) z.val ((F^[m + 1] z).val) := by
    intro m
    induction m with
    | zero =>
      intro z
      simpa using Relation.TransGen.single (hFe z)
    | succ k ih =>
      intro z
      have h2 : Edge g ((F^[k + 1] z).val) ((F^[k + 1 + 1] z).val) := by
        have h := hFe (F^[k + 1] z)
        rw [← Function.iterate_succ_apply' F (k + 1) z] at h
        exact h
      exact (ih z).tail h2
  have hmk : ∀ a b : Nat, a < b →
      (F^[a] ⟨u₀, hu₀⟩ : {x // x ∈ S}) = F^[b] ⟨u₀, hu₀⟩ → HasCycleSpec g := by
    intro a b hab hfeq
    have hb : (b - a - 1) + 1 + a = b := by omega
    have hiter : F^[(b - a - 1) + 1] (F^[a] ⟨u₀, hu₀⟩) = F^[a] ⟨u₀, hu₀⟩ := by
      rw [← Function.iterate_add_apply, hb, ← hfeq]
    have hc := hchain (b - a - 1) (F^[a] ⟨u₀, hu₀⟩)
    rw [hiter] at hc
    exact ⟨(F^[a] ⟨u₀, hu₀⟩).val, hc⟩
  have hcard : Fintype.card {x // x ∈ S} < Fintype.card (Fin (S.card + 1)) := by
    rw [Fintype.card_coe, Fintype.card_fin]
    omega
  obtain ⟨i, j, hij, heq⟩ := Fintype.exists_ne_map_eq_of_card_lt
    (fun i : Fin (S.card + 1) => F^[i.val] ⟨u₀, hu₀⟩) hcard
  rcases Nat.lt_or_ge i.val j.val with hlt | hge
  · exact hmk i.val j.val hlt heq
  · rcases Nat.eq_or_lt_of_le hge with h | h
    · exact absurd (Fin.val_injective h.symm) hij
    · exact hmk j.val i.val h heq.symm

/-- Completeness of a full Kahn run: over a closed graph with
duplicate-free dependency lists, unique keys, an in-degree map keyed
within the graph that matches per-occurrence counts, and a passed cycle
check, the run succeeds, emits every graph node exactly once, and leaves
every graph node's in-degree entry at 0. -/
theorem kahn_run_complete (g : Graph) (indeg : Indeg)
    (hg : (alKeys g).Nodup) (hi : (alKeys indeg).Nodup)
    (hkeys : ∀ k, k ∈ alKeys indeg → k ∈ alKeys g)
    (hmatch : ∀ p ∈ g, alGet indeg p.1 = some ((p.2.length : Int)))
    (hnodupdeps : ∀ p ∈ g, p.2.Nodup)
    (hclosed : closedB g = true)
    (hfalse : has_cycle g = .ok false) :
    ∃ final indegF, topological_sort_kahn g indeg = .ok (final, indegF)
      ∧ final.Nodup
      ∧ (∀ k, k ∈ final ↔ k ∈ alKeys g)
      ∧ (∀ v deps, alGet g v = some deps → alGet indegF v = some 0) := by
  classical
  obtain ⟨final, indegF, hrun, hinv, hmem⟩ := kahn_run_spec g indeg hg hi hmatch hfalse
  obtain ⟨hnodup, hI2, _, _, hI5⟩ := hinv
  have hfinNodup : final.Nodup := by simpa using hnodup
  have hfin_sub : ∀ k ∈ final, k ∈ alKeys g := by
    intro k hk
    rcases hmem k hk with h | h
    · exact hkeys k h
    · exact h
  have hcomplete : ∀ k ∈ alKeys g, k ∈ final := by
    by_contra hmiss
    push_neg at hmiss
    obtain ⟨u, hu, hunot⟩ := hmiss
    have hcyc : HasCycleSpec g := by
      refine cycle_of_succ g ((alKeys g).toFinset.filter (fun k => ¬ k ∈ final)) ?_ ?_
      · exact ⟨u, Finset.mem_filter.mpr ⟨List.mem_toFinset.mpr hu, hunot⟩⟩
      · intro v hv
        obtain ⟨hvg, hvnot⟩ := Finset.mem_filter.mp hv
        have hvg' : v ∈ alKeys g := List.mem_toFinset.mp hvg
        have hvsome : (alGet g v).isSome := (alGet_isSome_iff_mem g v).mpr hvg'
        obtain ⟨deps, hrow⟩ := Option.isSome_iff_exists.mp hvsome
        have hne0 : alGet indegF v ≠ some 0 := by
          intro h0
          have hvin := hI5 v deps hrow h0
          simp at hvin
          exact hvnot hvin
        have hval := hI2 v deps hrow
        have hne : ((deps.length : Int) -
            (((final.filter (fun x => decide (x ∈ deps))).length : Int))) ≠ 0 := by
          intro h
          rw [h] at hval
          exact hne0 hval
        obtain ⟨d, hd, hdnot⟩ := exists_dep_not_in final deps hfinNodup
          (hnodupdeps (v, deps) (alGet_mem g v deps hrow)) hne
        have hdg : d ∈ alKeys g := closed_mem_keys g hclosed v deps hrow d hd
        exact ⟨d, Finset.mem_filter.mpr ⟨List.mem_toFinset.mpr hdg, hdnot⟩,
          ⟨deps, hrow, hd⟩⟩
    exact has_cycle_complete g hfalse hcyc
  refine ⟨final, indegF, hrun, hfinNodup, fun k => ⟨hfin_sub k, hcomplete k⟩, ?_⟩
  intro v deps hrow
  have hval := hI2 v deps hrow
  have hdsub : ∀ d ∈ deps, d ∈ final := by
    intro d hd
    exact hcomplete d (closed_mem_keys g hclosed v deps hrow d hd)
  have hlen := filter_length_eq_of_subset final deps hfinNodup
    (hnodupdeps (v, deps) (alGet_mem g v deps hrow)) hdsub
  rw [hval, hlen]
  simp

/-- Claim C4, amended: for every acyclic closed graph with unique keys
whose dependency lists are duplicate-free, together with a matching
per-occurrence in-degree map keyed within the graph,
`topological_sort_kahn` returns a list containing every node of the graph
exactly once (it is duplicate-free and its members are exactly the
graph's keys).  Counterexamples show the claim's unrestricted form fails:
a duplicated dependency entry makes the dependant's count decrement only
once per dequeued node, so it never reaches 0 and the node is silently
dropped from the output. -/
theorem c4_amended_all_nodes_output (g : Graph) (indeg : Indeg)
    (hg : (alKeys g).Nodup) (hi : (alKeys indeg).Nodup)
    (hkeys : ∀ k, k ∈ alKeys indeg → k ∈ alKeys g)
    (hmatch : ∀ p ∈ g, alGet indeg p.1 = some ((p.2.length : Int)))
    (hnodupdeps : ∀ p ∈ g, p.2.Nodup)
    (hclosed : closedB g = true)
    (hacyc : ¬ HasCycleSpec g) :
    ∃ final indegF, topological_sort_kahn g indeg = .ok (final, indegF)
      ∧ final.Nodup
      ∧ (∀ k, k ∈ final ↔ k ∈ alKeys g) := by
  obtain ⟨b, hb⟩ := has_cycle_total g hclosed
  have hfalse : has_cycle g = .ok false := by
    cases b with
    | true => exact absurd (has_cycle_sound g hb) hacyc
    | false => exact hb
  obtain ⟨final, indegF, hrun, hnd, hiff, _⟩ :=
    kahn_run_complete g indeg hg hi hkeys hmatch hnodupdeps hclosed hfalse
  exact ⟨final, indegF, hrun, hnd, hiff⟩

/-- Claim C4 witness: the three-node diamond-free graph
`{P: [], Q: [P], R: [P, Q]}` with its per-occurrence in-degree map; the
run succeeds and emits exactly the three nodes. -/
theorem c4_amended_witness :
    closedB ([("P", []), ("Q", ["P"]), ("R", ["P", "Q"])] : Graph) = true
  ∧ ¬ HasCycleSpec ([("P", []), ("Q", ["P"]), ("R", ["P", "Q"])] : Graph)
  ∧ ∃ final indegF,
      topological_sort_kahn [("P", []), ("Q", ["P"]), ("R", ["P", "Q"])]
        [("P", 0), ("Q", 1), ("R", 2)] = .ok (final, indegF)
      ∧ final.Nodup
      ∧ (∀ k, k ∈ final
          ↔ k ∈ alKeys ([("P", []), ("Q", ["P"]), ("R", ["P", "Q"])] : Graph)) := by
  refine ⟨by rfl, has_cycle_complete _ (by rfl), ?_⟩
  exact c4_amended_all_nodes_output
    [("P", []), ("Q", ["P"]), ("R", ["P", "Q"])] [("P", 0), ("Q", 1), ("R", 2)]
    (by decide) (by decide) (fun k hk => hk) (by decide) (by decide) (by rfl)
    (has_cycle_complete _ (by rfl))

/-- Claim C9, amended: `topological_sort_kahn` works directly on the
caller's in-degree dict and mutates it (a counterexample exhibits a run
whose post-call dict differs from the pre-call one); on a successful run
over a closed acyclic graph with unique keys, duplicate-free dependency
lists and a matching in-degree map keyed within the graph, every graph
node's entry of the post-call dict ends at 0 rather than its original
count. -/
theorem c9_amended_indegree_ends_zero (g : Graph) (indeg : Indeg)
    (hg : (alKeys g).Nodup) (hi : (alKeys indeg).Nodup)
    (hkeys : ∀ k, k ∈ alKeys indeg → k ∈ alKeys g)
    (hmatch : ∀ p ∈ g, alGet indeg p.1 = some ((p.2.length : Int)))
    (hnodupdeps : ∀ p ∈ g, p.2.Nodup)
    (hclosed : closedB g = true)
    (hacyc : ¬ HasCycleSpec g) :
    ∃ final indegF, topological_sort_kahn g indeg = .ok (final, indegF)
      ∧ (∀ v deps, alGet g v = some deps → alGet indegF v = some 0) := by
  obtain ⟨b, hb⟩ := has_cycle_total g hclosed
  have hfalse : has_cycle g = .ok false := by
    cases b with
    | true => exact absurd (has_cycle_sound g hb) hacyc
    | false => exact hb
  obtain ⟨final, indegF, hrun, _, _, hzero⟩ :=
    kahn_run_complete g indeg hg hi hkeys hmatch hnodupdeps hclosed hfalse
  exact ⟨final, indegF, hrun, hzero⟩

/-- Claim C9 witness: the two-node graph `{X: [], Y: [X]}` with in-degree
map `{X: 0, Y: 1}`; the run succeeds and the post-call dict holds 0 for
both nodes (the entry of `Y` was decremented in place from 1). -/
theorem c9_amended_witness :
    closedB ([("X", []), ("Y", ["X"])] : Graph) = true
  ∧ ¬ HasCycleSpec ([("X", []), ("Y", ["X"])] : Graph)
  ∧ ∃ final indegF,
      topological_sort_kahn [("X", []), ("Y", ["X"])] [("X", 0), ("Y", 1)]
        = .ok (final, indegF)
      ∧ (∀ v deps, alGet ([("X", []), ("Y", ["X"])] : Graph) v = some deps →
          alGet indegF v = some 0) := by
  refine ⟨by rfl, has_cycle_complete _ (by rfl), ?_⟩
  exact c9_amended_indegree_ends_zero
    [("X", []), ("Y", ["X"])] [("X", 0), ("Y", 1)]
    (by decide) (by decide) (fun k hk => hk) (by decide) (by decide) (by rfl)
    (has_cycle_complete _ (by rfl))

end ExcelToPython
